import Mathlib

/-!
neo-ai-dlr: backend detection, TVM artifact resolution and the TVM model adapter

A shallow embedding of `src/dlr_common.cc` and `src/dlr_tvm.cc`.

* A `std::string` is a `List Char`, one character per byte; string literals
  are written `"...".toList`.
* The storage backend (`dmlc::io::FileSystem`) and the TVM graph runtime are
  external: what they report is an argument of the embedded function.
* `LOG(FATAL)` and a failed `CHECK` end the process: the embedded function
  returns `Except.error` with the tag of the diagnostic.
-/

namespace dlr

/-! ## Strings and paths (dlr_common) -/

/-- Modelled from the spec: `EndsWith` is declared in `dlr_common.h`, which is
not among the sources. The spec reads it as "the name ends in the extension":
`toMatch` is no longer than `mainStr` and equals its last characters. -/
def EndsWith (mainStr toMatch : List Char) : Bool :=
  decide (toMatch.length ≤ mainStr.length) &&
    (mainStr.drop (mainStr.length - toMatch.length) == toMatch)

/-- The C string `s.c_str()` as a callee reads it: the bytes before the first NUL. -/
def c_str (s : List Char) : List Char :=
  s.takeWhile (fun c => c != Char.ofNat 0)

/-- POSIX `basename(3)`: the empty path gives ".", a path made of slashes only
gives "/", otherwise the trailing slashes are dropped and the text after the
last remaining slash is returned. -/
def basename (path : List Char) : List Char :=
  if path = [] then ".".toList
  else
    let stripped := (path.reverse.dropWhile (fun c => c == '/')).reverse
    if stripped = [] then "/".toList
    else (stripped.reverse.takeWhile (fun c => c != '/')).reverse

/-- Function `dlr::GetBasename`, the branch compiled when `_WIN32` is not defined:
`strdup(path.c_str())`, then `basename`. -/
def GetBasename (path : List Char) : List Char :=
  basename (c_str path)

/-- Enumeration `dmlc::io::FileType`. -/
inductive FileType where
  | kFile
  | kDirectory
  deriving DecidableEq, Repr

/-- Structure `dmlc::io::FileInfo`, with `path.name` flattened to `name`. -/
structure FileInfo where
  name : List Char
  type : FileType
  deriving DecidableEq, Repr

/-- Function `dlr::ListDir`: `file_list` is what `fs->ListDirectory(uri, &file_list)`
stored; every entry that is not a directory is pushed to the back of `paths`. -/
def ListDir (file_list : List FileInfo) (paths : List (List Char)) : List (List Char) :=
  file_list.foldl
    (fun acc info => if info.type ≠ FileType.kDirectory then acc ++ [info.name] else acc)
    paths

/-- Enumeration `DLRBackend`. -/
inductive DLRBackend where
  | kTVM
  | kTREELITE
  | kTFLITE
  deriving DecidableEq, Repr

/-- The `for (auto filename : paths)` loop of `dlr::GetBackend` with its two
returns, and the `return DLRBackend::kTREELITE` after it. -/
def GetBackend.scan : List (List Char) → DLRBackend
  | [] => DLRBackend.kTREELITE
  | filename :: rest =>
    if EndsWith filename ".params".toList then DLRBackend.kTVM
    else if EndsWith filename ".tflite".toList then DLRBackend.kTFLITE
    else GetBackend.scan rest

/-- Function `dlr::GetBackend`; `file_list` is the storage backend's listing of `dirname`. -/
def GetBackend (dirname : List Char) (file_list : List FileInfo) : DLRBackend :=
  if EndsWith dirname ".tflite".toList then DLRBackend.kTFLITE
  else GetBackend.scan (ListDir file_list [])

/-- A regular file entry of a listing. -/
def file (name : String) : FileInfo := ⟨name.toList, FileType.kFile⟩

/-- A directory entry of a listing. -/
def dir (name : String) : FileInfo := ⟨name.toList, FileType.kDirectory⟩

/-! ## Artifact resolution (dlr_tvm) -/

/-- The diagnostics that end the process. -/
inductive Fatal where
  /-- Message "No valid TVM model files found under folder:" -/
  | no_valid_tvm_model_files
  /-- Message "Mismatch found in input data size" -/
  | mismatch_in_input_data_size
  /-- Message "Input index is out of range." -/
  | input_index_out_of_range
  /-- Message "Weight index is out of range." -/
  | weight_index_out_of_range
  deriving DecidableEq, Repr

deriving instance DecidableEq for Except

/-- Structure `ModelPath`: four strings, empty when default-constructed. -/
structure ModelPath where
  model_json : List Char := []
  model_lib : List Char := []
  params : List Char := []
  ver_json : List Char := []
  deriving DecidableEq, Repr

/-- The body of the `for (auto filename : paths_vec)` loop of `dlr::GetTvmPaths`.
`AUX` stands for the table `SAGEMAKER_AUXILIARY_JSON_FILES` and `LIBEXT` for the
macro of that name; both come from `dlr_common.h`. -/
def GetTvmPaths.step (AUX : List (List Char)) (LIBEXT : List Char)
    (paths : ModelPath) (filename : List Char) : ModelPath :=
  let basename := GetBasename filename
  if EndsWith filename ".json".toList
      && AUX.all (fun s => s != basename)
      && filename != "version.json".toList then
    { paths with model_json := filename }
  else if EndsWith filename LIBEXT then
    { paths with model_lib := filename }
  else if EndsWith filename ".params".toList then
    { paths with params := filename }
  else if filename == "version.json".toList then
    { paths with ver_json := filename }
  else paths

/-- The condition of the first `if` of the loop body: `filename` becomes `model_json`. -/
def GetTvmPaths.isModelJson (AUX : List (List Char)) (filename : List Char) : Bool :=
  EndsWith filename ".json".toList
    && AUX.all (fun s => s != GetBasename filename)
    && filename != "version.json".toList

/-- The loop body reaches and takes its second branch: `filename` becomes `model_lib`. -/
def GetTvmPaths.isModelLib (AUX : List (List Char)) (LIBEXT filename : List Char) : Bool :=
  !GetTvmPaths.isModelJson AUX filename && EndsWith filename LIBEXT

/-- The loop body reaches and takes its third branch: `filename` becomes `params`. -/
def GetTvmPaths.isParams (AUX : List (List Char)) (LIBEXT filename : List Char) : Bool :=
  !GetTvmPaths.isModelJson AUX filename && !EndsWith filename LIBEXT
    && EndsWith filename ".params".toList

/-- The loop body reaches and takes its last branch: `filename` becomes `ver_json`. -/
def GetTvmPaths.isVerJson (AUX : List (List Char)) (LIBEXT filename : List Char) : Bool :=
  !GetTvmPaths.isModelJson AUX filename && !EndsWith filename LIBEXT
    && !EndsWith filename ".params".toList && filename == "version.json".toList

/-- The state of `paths` after the loop of `dlr::GetTvmPaths`. -/
def GetTvmPaths.scan (AUX : List (List Char)) (LIBEXT : List Char)
    (paths_vec : List (List Char)) : ModelPath :=
  paths_vec.foldl (GetTvmPaths.step AUX LIBEXT) {}

/-- Function `dlr::GetTvmPaths`; `file_list` is the storage backend's listing of `dirname`. -/
def GetTvmPaths (AUX : List (List Char)) (LIBEXT : List Char)
    (file_list : List FileInfo) : Except Fatal ModelPath :=
  let paths_vec := ListDir file_list []
  let paths := GetTvmPaths.scan AUX LIBEXT paths_vec
  if paths.model_json.isEmpty || paths.model_lib.isEmpty || paths.params.isEmpty then
    Except.error Fatal.no_valid_tvm_model_files
  else Except.ok paths

/-- The auxiliary descriptor names used in the examples. -/
def auxFiles : List (List Char) := ["model-shapes.json".toList, "hyperparams.json".toList]

/-- The reading of "topology descriptor" in the specification: a `.json` file
whose basename is not auxiliary and is not `version.json`. -/
def isTopologyDescriptor (AUX : List (List Char)) (filename : List Char) : Bool :=
  EndsWith filename ".json".toList
    && AUX.all (fun s => s != GetBasename filename)
    && GetBasename filename != "version.json".toList

/-- What the library extension must satisfy for the three file kinds to be told
apart: it is not empty and its last character is neither the `n` of `.json`
nor the `s` of `.params` (true of `.so`, `.dylib` and `.dll`). -/
def libextDistinct (LIBEXT : List Char) : Bool :=
  match LIBEXT.getLast? with
  | some c => c != 'n' && c != 's'
  | none => false

/-! ## The TVM model adapter (dlr_tvm) -/

/-- The two fields of `DLTensor` the adapter computes with; `shape` lists the
64-bit entries behind the `shape` pointer. -/
structure DLTensor where
  ndim : Int
  shape : List Int
  deriving DecidableEq, Repr

/-- What the graph runtime reports after `Init` and `LoadParams`:
`GetInputName(0)`, ..., `GetInputName(NumInputs() - 1)` in order, the result of
`GetWeightNames()`, and `GetOutput(0)`, ..., `GetOutput(NumOutputs() - 1)`. -/
structure GraphRuntime where
  input_names : List (List Char)
  weight_names : List (List Char)
  outputs : List DLTensor
  deriving DecidableEq, Repr

/-- The members of `TVMModel` that `SetupTVMModule` writes. In a model just
constructed the vectors are empty; the counts are overwritten before any use. -/
structure TVMModel where
  input_names_ : List (List Char) := []
  weight_names_ : List (List Char) := []
  num_inputs_ : Nat := 0
  num_weights_ : Nat := 0
  num_outputs_ : Nat := 0
  outputs_ : List DLTensor := []
  deriving DecidableEq, Repr

/-- Call of `std::sort` on a vector of `std::string`: the ascending arrangement under
`operator<`, the lexicographic order on bytes. -/
def sort (v : List (List Char)) : List (List Char) :=
  v.insertionSort (fun a b => a ≤ b)

/-- How many times the name `x` occurs in `v`. -/
def occurrences (x : List Char) (v : List (List Char)) : Nat :=
  v.countP (fun y => decide (y = x))

/-- The loop of `std::set_difference` on two ranges, then the copy of what is
left of the first range. Each round advances at least one range, so
`n = first1.length + first2.length` rounds are enough. -/
def set_difference.loop : Nat → List (List Char) → List (List Char) → List (List Char)
  | 0, first1, _ => first1
  | _ + 1, [], _ => []
  | _ + 1, a :: as, [] => a :: as
  | n + 1, a :: as, b :: bs =>
    if a < b then a :: set_difference.loop n as (b :: bs)
    else if b < a then set_difference.loop n (a :: as) bs
    else set_difference.loop n as bs

/-- Call `std::set_difference(first1, last1, first2, last2, out)`: what is written
through `out`, in order. -/
def set_difference (range1 range2 : List (List Char)) : List (List Char) :=
  set_difference.loop (range1.length + range2.length) range1 range2

/-- Method `TVMModel::SetupTVMModule` from the `NumInputs()` call on (the runtime `rt`
is already initialised). `std::inserter(input_names_, input_names_.begin())`
puts the difference, in order, in front of what `input_names_` held. -/
def SetupTVMModule.names (m : TVMModel) (rt : GraphRuntime) : TVMModel :=
  let input_names := rt.input_names
  let weight_names_ := rt.weight_names
  let num_weights_ := weight_names_.length
  let input_names := sort input_names
  let weight_names_ := sort weight_names_
  let input_names_ := set_difference input_names weight_names_ ++ m.input_names_
  let num_inputs_ := input_names_.length
  let num_outputs_ := rt.outputs.length
  { input_names_ := input_names_
    weight_names_ := weight_names_
    num_inputs_ := num_inputs_
    num_weights_ := num_weights_
    num_outputs_ := num_outputs_
    outputs_ := rt.outputs }

/-- Method `TVMModel::SetupTVMModule`: `GetTvmPaths` may end the process; the files it
names are read and handed to the runtime, which is `rt` once initialised. -/
def SetupTVMModule (AUX : List (List Char)) (LIBEXT : List Char)
    (file_list : List FileInfo) (rt : GraphRuntime) (m : TVMModel) :
    Except Fatal TVMModel :=
  match GetTvmPaths AUX LIBEXT file_list with
  | Except.error e => Except.error e
  | Except.ok _ => Except.ok (SetupTVMModule.names m rt)

/-- A complete model directory, used in the examples. -/
def modelDir : List FileInfo :=
  [file "m/model.json", file "m/model.so", file "m/model.params"]

/-- Conversion of an integer to `int`: the value modulo 2^32 in [-2^31, 2^31). -/
def wrap32 (x : Int) : Int := (x + 2 ^ 31) % 2 ^ 32 - 2 ^ 31

/-- Conversion of an integer to `int64_t`: the value modulo 2^64 in [-2^63, 2^63). -/
def wrap64 (x : Int) : Int := (x + 2 ^ 63) % 2 ^ 64 - 2 ^ 63

/-- The call `std::accumulate(first, last, 1, std::multiplies<int64_t>())`. The
initial value `1` is an `int`, so the accumulator is an `int`: every round
multiplies in `int64_t` and stores the product back into the `int`. -/
def accumulate_int (range : List Int) : Int :=
  range.foldl (fun acc x => wrap32 (wrap64 (acc * x))) 1

/-- Modelled from the spec: the macro `CHECK_SHAPE` is defined in `dlr_common.h`,
which is not among the sources. The spec has it fail fatally with the
size-mismatch diagnostic when the two values differ. -/
def CHECK_SHAPE (value expected : Int) : Except Fatal Unit :=
  if value = expected then Except.ok () else Except.error Fatal.mismatch_in_input_data_size

/-- The call `std::accumulate(a, a + n, 1, std::multiplies<int64_t>())` on the
array `a`: `none` when `n` is negative or beyond the entries of the array, where
the call reads outside the array. -/
def accumulate_range (a : List Int) (n : Int) : Option Int :=
  if 0 ≤ n ∧ n.toNat ≤ a.length then some (accumulate_int (a.take n.toNat)) else none

/-- Method `TVMModel::SetInput` up to the check: `arr` is the descriptor the runtime
holds for the slot `name`, `shape` lists the entries behind the caller's
pointer and `dim` is the caller's count. The result is `none` when one of the
two products is taken over a range that leaves its array. -/
def SetInput (arr : DLTensor) (shape : List Int) (dim : Int) : Option (Except Fatal Unit) :=
  match accumulate_range shape dim with
  | none => none
  | some read_size =>
    match accumulate_range arr.shape arr.ndim with
    | none => none
    | some expected_size => some (CHECK_SHAPE read_size expected_size)

/-- Method `TVMModel::GetOutputShape`: the `ndim` entries `memcpy` writes to the caller,
`none` when the index or the copy leaves the stored data. -/
def GetOutputShape (outputs_ : List DLTensor) (index : Nat) : Option (List Int) :=
  match outputs_.get? index with
  | none => none
  | some tensor =>
    if 0 ≤ tensor.ndim ∧ tensor.ndim.toNat ≤ tensor.shape.length then
      some (tensor.shape.take tensor.ndim.toNat)
    else none

/-- The `for (int i = 0; i < tensor->ndim; ++i)` loop of `GetOutputSizeDim`;
`none` when `tensor->shape[i]` is read outside the stored entries. -/
def GetOutputSizeDim.loop (tensor : DLTensor) : Nat → Int → Int → Option Int
  | 0, _, size => some size
  | n + 1, i, size =>
    if i < tensor.ndim then
      match tensor.shape.get? i.toNat with
      | none => none
      | some d => GetOutputSizeDim.loop tensor n (i + 1) (wrap64 (size * d))
    else some size

/-- Method `TVMModel::GetOutputSizeDim`: the pair `(*size, *dim)`. The loop runs at
most `ndim` rounds. -/
def GetOutputSizeDim (outputs_ : List DLTensor) (index : Nat) : Option (Int × Int) :=
  match outputs_.get? index with
  | none => none
  | some tensor =>
    match GetOutputSizeDim.loop tensor tensor.ndim.toNat 0 1 with
    | none => none
    | some size => some (size, tensor.ndim)

/-! ## Name accessors (dlr_tvm) -/

/-- The declared type of the members `num_inputs_` and `num_weights_`. They are
declared in `dlr_common.h`, which is not among the sources, so the type is an
argument: `size_t` (the type of the vector sizes stored in them) or `int`. -/
inductive CountType where
  | size_t
  | int
  deriving DecidableEq, Repr

/-- Conversion of an `int` to `size_t`: the value modulo 2^64. -/
def to_size_t (x : Int) : Nat := (x % 2 ^ 64).toNat

/-- The comparison `index < count` inside `CHECK_LT(index, count)`, `index` being
an `int`. Against a `size_t` count the index is converted to `size_t` first;
against an `int` count both are compared as `int`. -/
def CHECK_LT (ty : CountType) (index : Int) (count : Nat) : Bool :=
  match ty with
  | CountType.size_t => decide (to_size_t index < count)
  | CountType.int => decide (index < wrap32 count)

/-- Method `TVMModel::GetInputName`: the fatal diagnostic when the check fails,
otherwise `input_names_[index]`, the index converted to `size_t`; `none` stands
for a read outside the vector. -/
def GetInputName (ty : CountType) (m : TVMModel) (index : Int) :
    Except Fatal (Option (List Char)) :=
  if CHECK_LT ty index m.num_inputs_ then
    Except.ok (m.input_names_.get? (to_size_t index))
  else Except.error Fatal.input_index_out_of_range

/-- Method `TVMModel::GetWeightName`: the fatal diagnostic when the check fails,
otherwise `weight_names_[index]`, the index converted to `size_t`; `none` stands
for a read outside the vector. -/
def GetWeightName (ty : CountType) (m : TVMModel) (index : Int) :
    Except Fatal (Option (List Char)) :=
  if CHECK_LT ty index m.num_weights_ then
    Except.ok (m.weight_names_.get? (to_size_t index))
  else Except.error Fatal.weight_index_out_of_range

/-! ## The branch of GetBasename compiled under _WIN32 (dlr_common) -/

/-- The value `std::string::npos` of a 64-bit `size_t`. -/
def npos : Nat := 2 ^ 64 - 1

/-- Member `find_last_of` of `std::string`: the position of the last character
of `s` that occurs in `chars`, or `npos`. -/
def find_last_of (s chars : List Char) : Nat :=
  let r := s.reverse.dropWhile (fun c => !chars.contains c)
  if r.isEmpty then npos else r.length - 1

/-- How the stripping loop of `GetBasename` ends. -/
inductive LoopEnd where
  /-- The loop stops with this value of `i`. -/
  | stop (i : Nat)
  /-- The loop reads `path[i]` at a position beyond `path.length()`. -/
  | outside
  /-- The rounds allowed were used up. -/
  | unfinished
  deriving DecidableEq, Repr

/-- The loop `while ((path[i] == '/' || path[i] == '\\') && i >= 0) --i;` with
`i` a `size_t`: `path[i]` is read first (the position `path.length()` holds the
terminating NUL), `i >= 0` holds for every `size_t`, and `--i` wraps at 0. -/
def GetBasename.loop (path : List Char) : Nat → Nat → LoopEnd
  | 0, _ => LoopEnd.unfinished
  | n + 1, i =>
    if path.length < i then LoopEnd.outside
    else
      let c := path.getD i (Char.ofNat 0)
      if (c == '/' || c == '\\') && decide (0 ≤ i) then
        GetBasename.loop path n ((i + (2 ^ 64 - 1)) % 2 ^ 64)
      else LoopEnd.stop i

/-- What the `_WIN32` branch of `GetBasename` leaves in `path_`. -/
inductive StripEnd where
  /-- The string stored in `path_`. -/
  | path_ (s : List Char)
  /-- The loop read outside the string. -/
  | outside
  /-- The rounds allowed were used up. -/
  | unfinished
  deriving DecidableEq, Repr

/-- The `_WIN32` branch of `GetBasename` down to the value of `path_`, before the
call of `_splitpath_s`. The loop starts at the last position and moves down,
so `path.length() + 2` rounds are enough. -/
def GetBasename.win32_path_ (path : List Char) : StripEnd :=
  let tmp := find_last_of path "/\\".toList
  if tmp = (path.length + (2 ^ 64 - 1)) % 2 ^ 64 then
    match GetBasename.loop path (path.length + 2) tmp with
    | LoopEnd.stop i => StripEnd.path_ (path.take ((i + 1) % 2 ^ 64))
    | LoopEnd.outside => StripEnd.outside
    | LoopEnd.unfinished => StripEnd.unfinished
  else StripEnd.path_ path

/-- A path separator of the `_WIN32` branch. -/
def isSeparator (c : Char) : Bool := c == '/' || c == '\\'

/-- The path without its trailing separators. -/
def dropTrailingSeparators (path : List Char) : List Char :=
  (path.reverse.dropWhile isSeparator).reverse

/-- A runtime with three slots, two of them weights, used in the examples. -/
def exampleRuntime : GraphRuntime :=
  ⟨["fc_w".toList, "data".toList, "fc_b".toList], ["fc_w".toList, "fc_b".toList], []⟩

/-- The model `SetupTVMModule` builds from `exampleRuntime`. -/
def exampleModel : TVMModel :=
  ⟨["data".toList], ["fc_b".toList, "fc_w".toList], 1, 2, 0, []⟩

/-- A model directory with two files of each kind and a version descriptor. -/
def doubledDir : List FileInfo :=
  [file "m/a.json", file "m/a.so", file "m/a.params", file "version.json",
    file "m/b.params", file "m/b.so", file "m/b.json"]

theorem ListDir_eq (file_list : List FileInfo) (paths : List (List Char)) :
    ListDir file_list paths
      = paths ++ (file_list.filter (fun info => info.type ≠ FileType.kDirectory)).map
          FileInfo.name := by
  induction file_list generalizing paths with
  | nil => simp [ListDir]
  | cons info rest ih =>
    have hstep : ListDir (info :: rest) paths
        = ListDir rest (if info.type ≠ FileType.kDirectory then paths ++ [info.name]
            else paths) := rfl
    rw [hstep, ih]
    by_cases h : info.type = FileType.kDirectory
    · simp [h]
    · simp [h]

theorem mem_ListDir (file_list : List FileInfo) (f : List Char) :
    f ∈ ListDir file_list [] ↔
      ∃ info ∈ file_list, info.type ≠ FileType.kDirectory ∧ info.name = f := by
  simp [ListDir_eq, and_assoc]

theorem ListDir_append (l₁ l₂ : List FileInfo) :
    ListDir (l₁ ++ l₂) [] = ListDir l₁ [] ++ ListDir l₂ [] := by
  simp [ListDir_eq]

theorem scan_eq_treelite (paths : List (List Char)) :
    GetBackend.scan paths = DLRBackend.kTREELITE ↔
      ∀ f ∈ paths, EndsWith f ".params".toList = false ∧ EndsWith f ".tflite".toList = false := by
  induction paths with
  | nil => simp [GetBackend.scan]
  | cons f rest ih =>
    unfold GetBackend.scan
    simp only [List.mem_cons, forall_eq_or_imp]
    by_cases hp : EndsWith f ".params".toList = true
    · rw [if_pos hp, hp]
      simp
    · by_cases ht : EndsWith f ".tflite".toList = true
      · rw [if_neg hp, if_pos ht, ht]
        simp
      · rw [if_neg hp, if_neg ht, ih]
        rw [Bool.not_eq_true] at hp ht
        rw [hp, ht]
        simp

theorem scan_first_params (pre post : List (List Char)) (f : List Char)
    (hpre : ∀ g ∈ pre, EndsWith g ".tflite".toList = false)
    (hf : EndsWith f ".params".toList = true) :
    GetBackend.scan (pre ++ f :: post) = DLRBackend.kTVM := by
  induction pre with
  | nil =>
    show GetBackend.scan (f :: post) = DLRBackend.kTVM
    unfold GetBackend.scan
    rw [if_pos hf]
  | cons g rest ih =>
    have hg : EndsWith g ".tflite".toList = false := hpre g (List.mem_cons_self _ _)
    have hrest : ∀ g ∈ rest, EndsWith g ".tflite".toList = false :=
      fun x hx => hpre x (List.mem_cons_of_mem _ hx)
    show GetBackend.scan (g :: (rest ++ f :: post)) = DLRBackend.kTVM
    unfold GetBackend.scan
    by_cases hp : EndsWith g ".params".toList = true
    · rw [if_pos hp]
    · rw [if_neg hp, if_neg (by rw [hg]; exact Bool.false_ne_true), ih hrest]

/-- C1, as stated, fails: a listing with a `.params` file does not give kTVM when
the path itself ends in `.tflite`, nor when a `.tflite` file is listed before
the `.params` file. -/
theorem GetBackend_params_not_always_tvm :
    ((∃ info ∈ [file "m/b.params"], info.type ≠ FileType.kDirectory
          ∧ EndsWith info.name ".params".toList = true)
        ∧ GetBackend "m.tflite".toList [file "m/b.params"] ≠ DLRBackend.kTVM)
      ∧ ((∃ info ∈ [file "m/a.tflite", file "m/b.params"], info.type ≠ FileType.kDirectory
          ∧ EndsWith info.name ".params".toList = true)
        ∧ GetBackend "m".toList [file "m/a.tflite", file "m/b.params"] ≠ DLRBackend.kTVM) := by
  decide

/-- C1, amended: when the path does not end in `.tflite` and the listing has a
file ending in `.params` with no file ending in `.tflite` listed before it,
GetBackend returns kTVM, whatever follows that file. -/
theorem GetBackend_params_first (dirname : List Char) (pre post : List FileInfo)
    (info : FileInfo)
    (hdir : EndsWith dirname ".tflite".toList = false)
    (hfile : info.type ≠ FileType.kDirectory)
    (hparams : EndsWith info.name ".params".toList = true)
    (hpre : ∀ g ∈ pre, g.type ≠ FileType.kDirectory → EndsWith g.name ".tflite".toList = false) :
    GetBackend dirname (pre ++ info :: post) = DLRBackend.kTVM := by
  have hsplit : ListDir (pre ++ info :: post) []
      = ListDir pre [] ++ info.name :: ListDir post [] := by
    have h1 : pre ++ info :: post = pre ++ ([info] ++ post) := by simp
    rw [h1, ListDir_append, ListDir_append]
    simp [ListDir_eq, hfile]
  unfold GetBackend
  rw [hsplit, if_neg (by rw [hdir]; exact Bool.false_ne_true)]
  apply scan_first_params _ _ _ _ hparams
  intro g hg
  obtain ⟨i, hi, hty, hname⟩ := (mem_ListDir pre g).mp hg
  rw [← hname]
  exact hpre i hi hty

theorem GetBackend_params_first_witness :
    GetBackend "m".toList ([dir "m/x.tflite", file "m/a.json"] ++ file "m/b.params"
      :: [file "m/c.tflite"]) = DLRBackend.kTVM :=
  GetBackend_params_first "m".toList [dir "m/x.tflite", file "m/a.json"] [file "m/c.tflite"]
    (file "m/b.params") (by decide) (by decide) (by decide) (by decide)

/-- C2: a path ending in `.tflite` gives kTFLITE for every listing, so the result
is the same for any two listings. -/
theorem GetBackend_tflite_path (dirname : List Char) (file_list : List FileInfo)
    (h : EndsWith dirname ".tflite".toList = true) :
    GetBackend dirname file_list = DLRBackend.kTFLITE
      ∧ ∀ other : List FileInfo, GetBackend dirname other = GetBackend dirname file_list := by
  have key : ∀ fl : List FileInfo, GetBackend dirname fl = DLRBackend.kTFLITE := by
    intro fl
    unfold GetBackend
    rw [if_pos h]
  exact ⟨key file_list, fun other => by rw [key other, key file_list]⟩

theorem GetBackend_tflite_path_witness :
    GetBackend "/models/net.tflite".toList [file "a.params"] = DLRBackend.kTFLITE
      ∧ ∀ other : List FileInfo, GetBackend "/models/net.tflite".toList other
          = GetBackend "/models/net.tflite".toList [file "a.params"] :=
  GetBackend_tflite_path "/models/net.tflite".toList [file "a.params"] (by decide)

/-- C3: GetBackend returns kTREELITE exactly when the path does not end in
`.tflite` and no file of the listing ends in `.params` or in `.tflite`; the
empty listing is such a listing. -/
theorem GetBackend_treelite_iff (dirname : List Char) (file_list : List FileInfo) :
    (GetBackend dirname file_list = DLRBackend.kTREELITE ↔
      EndsWith dirname ".tflite".toList = false
        ∧ ∀ info ∈ file_list, info.type ≠ FileType.kDirectory →
            EndsWith info.name ".params".toList = false
              ∧ EndsWith info.name ".tflite".toList = false)
      ∧ (GetBackend dirname [] = DLRBackend.kTREELITE ↔
          EndsWith dirname ".tflite".toList = false) := by
  have key : ∀ fl : List FileInfo, (GetBackend dirname fl = DLRBackend.kTREELITE ↔
      EndsWith dirname ".tflite".toList = false
        ∧ ∀ info ∈ fl, info.type ≠ FileType.kDirectory →
            EndsWith info.name ".params".toList = false
              ∧ EndsWith info.name ".tflite".toList = false) := by
    intro fl
    unfold GetBackend
    by_cases hd : EndsWith dirname ".tflite".toList = true
    · rw [if_pos hd, hd]
      simp
    · rw [if_neg hd, scan_eq_treelite]
      simp only [mem_ListDir]
      rw [Bool.not_eq_true] at hd
      constructor
      · intro h
        exact ⟨hd, fun info hi hty => h info.name ⟨info, hi, hty, rfl⟩⟩
      · rintro ⟨_, h⟩ f ⟨info, hi, hty, rfl⟩
        exact h info hi hty
  refine ⟨key file_list, ?_⟩
  rw [key []]
  simp

/-! ## Artifact resolution -/

theorem EndsWith_iff_suffix (mainStr toMatch : List Char) :
    EndsWith mainStr toMatch = true ↔ toMatch <:+ mainStr := by
  unfold EndsWith
  rw [Bool.and_eq_true, decide_eq_true_eq, beq_iff_eq, List.suffix_iff_eq_drop]
  constructor
  · rintro ⟨_, h⟩
    exact h.symm
  · intro h
    refine ⟨?_, h.symm⟩
    have hlen := congrArg List.length h
    rw [List.length_drop] at hlen
    omega

theorem EndsWith_getLast (mainStr toMatch : List Char) (c : Char)
    (h : EndsWith mainStr toMatch = true) (hc : toMatch.getLast? = some c) :
    mainStr.getLast? = some c := by
  obtain ⟨t, rfl⟩ := (EndsWith_iff_suffix mainStr toMatch).mp h
  have hne : toMatch ≠ [] := by
    rintro rfl
    simp at hc
  rw [List.getLast?_append_of_ne_nil t hne, hc]

theorem EndsWith_ne_nil (mainStr toMatch : List Char) (h : EndsWith mainStr toMatch = true)
    (hne : toMatch ≠ []) : mainStr ≠ [] := by
  obtain ⟨t, rfl⟩ := (EndsWith_iff_suffix mainStr toMatch).mp h
  simp [hne]

theorem libextDistinct_iff (LIBEXT : List Char) :
    libextDistinct LIBEXT = true ↔ ∃ c, LIBEXT.getLast? = some c ∧ c ≠ 'n' ∧ c ≠ 's' := by
  unfold libextDistinct
  cases h : LIBEXT.getLast? with
  | none => simp
  | some c => simp

theorem not_json_of_libext (LIBEXT f : List Char) (hext : libextDistinct LIBEXT = true)
    (h : EndsWith f LIBEXT = true) : EndsWith f ".json".toList = false := by
  obtain ⟨c, hc, hn, _⟩ := (libextDistinct_iff LIBEXT).mp hext
  have h1 := EndsWith_getLast f LIBEXT c h hc
  rw [← Bool.not_eq_true]
  intro hj
  have h2 := EndsWith_getLast f ".json".toList 'n' hj (by decide)
  rw [h1] at h2
  exact hn (Option.some.inj h2)

theorem not_libext_of_params (LIBEXT f : List Char) (hext : libextDistinct LIBEXT = true)
    (h : EndsWith f ".params".toList = true) : EndsWith f LIBEXT = false := by
  obtain ⟨c, hc, _, hs⟩ := (libextDistinct_iff LIBEXT).mp hext
  have h2 := EndsWith_getLast f ".params".toList 's' h (by decide)
  rw [← Bool.not_eq_true]
  intro hl
  have h1 := EndsWith_getLast f LIBEXT c hl hc
  rw [h1] at h2
  exact hs (Option.some.inj h2)

theorem not_json_of_params (f : List Char) (h : EndsWith f ".params".toList = true) :
    EndsWith f ".json".toList = false := by
  have h2 := EndsWith_getLast f ".params".toList 's' h (by decide)
  rw [← Bool.not_eq_true]
  intro hj
  have h1 := EndsWith_getLast f ".json".toList 'n' hj (by decide)
  rw [h1] at h2
  exact absurd (Option.some.inj h2) (by decide)

/-- A fold that stores the current element in a field whenever `sel` holds
leaves in the field the last element satisfying `sel`. -/
theorem foldl_last_selected {σ α : Type} (g : σ → α → σ) (π : σ → α) (sel : α → Bool)
    (hg : ∀ s x, π (g s x) = if sel x = true then x else π s) (init : σ) (l : List α) :
    π (l.foldl g init) = ((l.filter sel).getLast?).getD (π init) := by
  induction l generalizing init with
  | nil => simp
  | cons x xs ih =>
    rw [List.foldl_cons, ih, hg]
    by_cases hx : sel x = true
    · rw [if_pos hx, List.filter_cons_of_pos hx, List.getLast?_cons]
      rfl
    · rw [if_neg hx, List.filter_cons_of_neg hx]

theorem step_model_json (AUX : List (List Char)) (LIBEXT : List Char) (p : ModelPath)
    (f : List Char) :
    (GetTvmPaths.step AUX LIBEXT p f).model_json
      = if GetTvmPaths.isModelJson AUX f = true then f else p.model_json := by
  unfold GetTvmPaths.step GetTvmPaths.isModelJson
  dsimp only
  generalize (EndsWith f ".json".toList && AUX.all (fun s => s != GetBasename f)
    && f != "version.json".toList) = c₁
  generalize EndsWith f LIBEXT = c₂
  generalize EndsWith f ".params".toList = c₃
  generalize (f == "version.json".toList) = c₄
  cases c₁ <;> cases c₂ <;> cases c₃ <;> cases c₄ <;> rfl

theorem step_model_lib (AUX : List (List Char)) (LIBEXT : List Char) (p : ModelPath)
    (f : List Char) :
    (GetTvmPaths.step AUX LIBEXT p f).model_lib
      = if GetTvmPaths.isModelLib AUX LIBEXT f = true then f else p.model_lib := by
  unfold GetTvmPaths.step GetTvmPaths.isModelLib GetTvmPaths.isModelJson
  dsimp only
  generalize (EndsWith f ".json".toList && AUX.all (fun s => s != GetBasename f)
    && f != "version.json".toList) = c₁
  generalize EndsWith f LIBEXT = c₂
  generalize EndsWith f ".params".toList = c₃
  generalize (f == "version.json".toList) = c₄
  cases c₁ <;> cases c₂ <;> cases c₃ <;> cases c₄ <;> rfl

theorem step_params (AUX : List (List Char)) (LIBEXT : List Char) (p : ModelPath)
    (f : List Char) :
    (GetTvmPaths.step AUX LIBEXT p f).params
      = if GetTvmPaths.isParams AUX LIBEXT f = true then f else p.params := by
  unfold GetTvmPaths.step GetTvmPaths.isParams GetTvmPaths.isModelJson
  dsimp only
  generalize (EndsWith f ".json".toList && AUX.all (fun s => s != GetBasename f)
    && f != "version.json".toList) = c₁
  generalize EndsWith f LIBEXT = c₂
  generalize EndsWith f ".params".toList = c₃
  generalize (f == "version.json".toList) = c₄
  cases c₁ <;> cases c₂ <;> cases c₃ <;> cases c₄ <;> rfl

theorem scan_model_json (AUX : List (List Char)) (LIBEXT : List Char)
    (paths_vec : List (List Char)) :
    (GetTvmPaths.scan AUX LIBEXT paths_vec).model_json
      = ((paths_vec.filter (GetTvmPaths.isModelJson AUX)).getLast?).getD [] :=
  foldl_last_selected (GetTvmPaths.step AUX LIBEXT) ModelPath.model_json
    (GetTvmPaths.isModelJson AUX) (step_model_json AUX LIBEXT) {} paths_vec

theorem scan_model_lib (AUX : List (List Char)) (LIBEXT : List Char)
    (paths_vec : List (List Char)) :
    (GetTvmPaths.scan AUX LIBEXT paths_vec).model_lib
      = ((paths_vec.filter (GetTvmPaths.isModelLib AUX LIBEXT)).getLast?).getD [] :=
  foldl_last_selected (GetTvmPaths.step AUX LIBEXT) ModelPath.model_lib
    (GetTvmPaths.isModelLib AUX LIBEXT) (step_model_lib AUX LIBEXT) {} paths_vec

theorem scan_params (AUX : List (List Char)) (LIBEXT : List Char)
    (paths_vec : List (List Char)) :
    (GetTvmPaths.scan AUX LIBEXT paths_vec).params
      = ((paths_vec.filter (GetTvmPaths.isParams AUX LIBEXT)).getLast?).getD [] :=
  foldl_last_selected (GetTvmPaths.step AUX LIBEXT) ModelPath.params
    (GetTvmPaths.isParams AUX LIBEXT) (step_params AUX LIBEXT) {} paths_vec

/-- When no element satisfies `sel`, the last selected element defaults. -/
theorem last_selected_none {α : Type} (sel : α → Bool) (l : List α) (d : α)
    (h : ∀ x ∈ l, sel x = false) : ((l.filter sel).getLast?).getD d = d := by
  have : l.filter sel = [] := by
    rw [List.filter_eq_nil_iff]
    intro a ha
    rw [h a ha]
    exact Bool.false_ne_true
  rw [this]
  rfl

/-- When some element satisfies `sel`, the last selected element is in the list
and satisfies `sel`. -/
theorem last_selected_some {α : Type} (sel : α → Bool) (l : List α) (d : α)
    (h : ∃ x ∈ l, sel x = true) :
    ((l.filter sel).getLast?).getD d ∈ l ∧ sel (((l.filter sel).getLast?).getD d) = true := by
  obtain ⟨x, hx, hs⟩ := h
  have hne : l.filter sel ≠ [] := List.ne_nil_of_mem (List.mem_filter.mpr ⟨hx, hs⟩)
  cases hlast : (l.filter sel).getLast? with
  | none => exact absurd (List.getLast?_eq_none_iff.mp hlast) hne
  | some y =>
    have hy := List.mem_filter.mp (List.mem_of_getLast?_eq_some hlast)
    exact hy

theorem step_ver_json (AUX : List (List Char)) (LIBEXT : List Char) (p : ModelPath)
    (f : List Char) :
    (GetTvmPaths.step AUX LIBEXT p f).ver_json
      = if GetTvmPaths.isVerJson AUX LIBEXT f = true then f else p.ver_json := by
  unfold GetTvmPaths.step GetTvmPaths.isVerJson GetTvmPaths.isModelJson
  dsimp only
  generalize (EndsWith f ".json".toList && AUX.all (fun s => s != GetBasename f)
    && f != "version.json".toList) = c₁
  generalize EndsWith f LIBEXT = c₂
  generalize EndsWith f ".params".toList = c₃
  generalize (f == "version.json".toList) = c₄
  cases c₁ <;> cases c₂ <;> cases c₃ <;> cases c₄ <;> rfl

theorem scan_ver_json (AUX : List (List Char)) (LIBEXT : List Char)
    (paths_vec : List (List Char)) :
    (GetTvmPaths.scan AUX LIBEXT paths_vec).ver_json
      = ((paths_vec.filter (GetTvmPaths.isVerJson AUX LIBEXT)).getLast?).getD [] :=
  foldl_last_selected (GetTvmPaths.step AUX LIBEXT) ModelPath.ver_json
    (GetTvmPaths.isVerJson AUX LIBEXT) (step_ver_json AUX LIBEXT) {} paths_vec

theorem isModelJson_of_isTopologyDescriptor (AUX : List (List Char)) (f : List Char)
    (h : isTopologyDescriptor AUX f = true) : GetTvmPaths.isModelJson AUX f = true := by
  unfold isTopologyDescriptor at h
  unfold GetTvmPaths.isModelJson
  rw [Bool.and_eq_true] at h ⊢
  refine ⟨h.1, ?_⟩
  rw [bne_iff_ne]
  intro hf
  have hb : GetBasename f = "version.json".toList := by
    rw [hf]
    decide
  have h2 := h.2
  rw [bne_iff_ne] at h2
  exact h2 hb

/-- The fail-fast check under the test the code applies: GetTvmPaths ends the
process when no listed file passes the first branch, or none ends in `LIBEXT`,
or none ends in `.params`. -/
theorem GetTvmPaths_fatal_when_missing (AUX : List (List Char)) (LIBEXT : List Char)
    (file_list : List FileInfo)
    (h : (∀ info ∈ file_list, info.type ≠ FileType.kDirectory →
            GetTvmPaths.isModelJson AUX info.name = false)
        ∨ (∀ info ∈ file_list, info.type ≠ FileType.kDirectory →
            EndsWith info.name LIBEXT = false)
        ∨ (∀ info ∈ file_list, info.type ≠ FileType.kDirectory →
            EndsWith info.name ".params".toList = false)) :
    GetTvmPaths AUX LIBEXT file_list = Except.error Fatal.no_valid_tvm_model_files := by
  have hempty : (GetTvmPaths.scan AUX LIBEXT (ListDir file_list [])).model_json = []
      ∨ (GetTvmPaths.scan AUX LIBEXT (ListDir file_list [])).model_lib = []
      ∨ (GetTvmPaths.scan AUX LIBEXT (ListDir file_list [])).params = [] := by
    rcases h with h | h | h
    · left
      rw [scan_model_json]
      apply last_selected_none
      intro f hf
      obtain ⟨info, hi, hty, rfl⟩ := (mem_ListDir file_list f).mp hf
      exact h info hi hty
    · right; left
      rw [scan_model_lib]
      apply last_selected_none
      intro f hf
      obtain ⟨info, hi, hty, rfl⟩ := (mem_ListDir file_list f).mp hf
      unfold GetTvmPaths.isModelLib
      rw [h info hi hty, Bool.and_false]
    · right; right
      rw [scan_params]
      apply last_selected_none
      intro f hf
      obtain ⟨info, hi, hty, rfl⟩ := (mem_ListDir file_list f).mp hf
      unfold GetTvmPaths.isParams
      rw [h info hi hty, Bool.and_false]
  unfold GetTvmPaths
  dsimp only
  rcases hempty with h | h | h <;> rw [h] <;> simp

/-- C4 fails on the code: a listing whose only `.json` file is `m/version.json`
has no topology descriptor, yet GetTvmPaths returns without a fatal error and
reports that file as `model_json`. -/
theorem GetTvmPaths_accepts_listing_without_descriptor :
    (∀ info ∈ [file "m/version.json", file "m/model.so", file "m/model.params"],
        isTopologyDescriptor auxFiles info.name = false)
      ∧ GetTvmPaths auxFiles ".so".toList
          [file "m/version.json", file "m/model.so", file "m/model.params"]
        = Except.ok
            { model_json := "m/version.json".toList
              model_lib := "m/model.so".toList
              params := "m/model.params".toList
              ver_json := [] } := by
  decide

/-- C5: a listing with a topology descriptor, a file ending in `LIBEXT` and a file
ending in `.params` is accepted, and the three returned fields are non-empty
names of listed files with the `.json`, `LIBEXT` and `.params` suffix. -/
theorem GetTvmPaths_valid (AUX : List (List Char)) (LIBEXT : List Char)
    (file_list : List FileInfo)
    (hext : libextDistinct LIBEXT = true)
    (hjson : ∃ info ∈ file_list, info.type ≠ FileType.kDirectory
      ∧ isTopologyDescriptor AUX info.name = true)
    (hlib : ∃ info ∈ file_list, info.type ≠ FileType.kDirectory
      ∧ EndsWith info.name LIBEXT = true)
    (hparams : ∃ info ∈ file_list, info.type ≠ FileType.kDirectory
      ∧ EndsWith info.name ".params".toList = true) :
    ∃ paths : ModelPath, GetTvmPaths AUX LIBEXT file_list = Except.ok paths
      ∧ paths.model_json ≠ [] ∧ paths.model_lib ≠ [] ∧ paths.params ≠ []
      ∧ (∃ info ∈ file_list, info.type ≠ FileType.kDirectory ∧ info.name = paths.model_json)
      ∧ EndsWith paths.model_json ".json".toList = true
      ∧ (∃ info ∈ file_list, info.type ≠ FileType.kDirectory ∧ info.name = paths.model_lib)
      ∧ EndsWith paths.model_lib LIBEXT = true
      ∧ (∃ info ∈ file_list, info.type ≠ FileType.kDirectory ∧ info.name = paths.params)
      ∧ EndsWith paths.params ".params".toList = true := by
  have hLne : LIBEXT ≠ [] := by
    obtain ⟨c, hc, _⟩ := (libextDistinct_iff LIBEXT).mp hext
    rintro rfl
    simp at hc
  -- the last file taking the first branch
  have hj : ∃ f ∈ ListDir file_list [], GetTvmPaths.isModelJson AUX f = true := by
    obtain ⟨info, hi, hty, hd⟩ := hjson
    exact ⟨info.name, (mem_ListDir _ _).mpr ⟨info, hi, hty, rfl⟩,
      isModelJson_of_isTopologyDescriptor AUX info.name hd⟩
  have hl : ∃ f ∈ ListDir file_list [], GetTvmPaths.isModelLib AUX LIBEXT f = true := by
    obtain ⟨info, hi, hty, hd⟩ := hlib
    refine ⟨info.name, (mem_ListDir _ _).mpr ⟨info, hi, hty, rfl⟩, ?_⟩
    unfold GetTvmPaths.isModelLib GetTvmPaths.isModelJson
    rw [not_json_of_libext LIBEXT info.name hext hd, hd]
    rfl
  have hp : ∃ f ∈ ListDir file_list [], GetTvmPaths.isParams AUX LIBEXT f = true := by
    obtain ⟨info, hi, hty, hd⟩ := hparams
    refine ⟨info.name, (mem_ListDir _ _).mpr ⟨info, hi, hty, rfl⟩, ?_⟩
    unfold GetTvmPaths.isParams GetTvmPaths.isModelJson
    rw [not_json_of_params info.name hd, not_libext_of_params LIBEXT info.name hext hd, hd]
    rfl
  obtain ⟨hjmem, hjsel⟩ := last_selected_some _ _ ([] : List Char) hj
  obtain ⟨hlmem, hlsel⟩ := last_selected_some _ _ ([] : List Char) hl
  obtain ⟨hpmem, hpsel⟩ := last_selected_some _ _ ([] : List Char) hp
  rw [← scan_model_json AUX LIBEXT] at hjmem hjsel
  rw [← scan_model_lib AUX LIBEXT] at hlmem hlsel
  rw [← scan_params AUX LIBEXT] at hpmem hpsel
  have hjend : EndsWith (GetTvmPaths.scan AUX LIBEXT (ListDir file_list [])).model_json
      ".json".toList = true := by
    unfold GetTvmPaths.isModelJson at hjsel
    rw [Bool.and_eq_true, Bool.and_eq_true] at hjsel
    exact hjsel.1.1
  have hlend : EndsWith (GetTvmPaths.scan AUX LIBEXT (ListDir file_list [])).model_lib
      LIBEXT = true := by
    unfold GetTvmPaths.isModelLib at hlsel
    rw [Bool.and_eq_true] at hlsel
    exact hlsel.2
  have hpend : EndsWith (GetTvmPaths.scan AUX LIBEXT (ListDir file_list [])).params
      ".params".toList = true := by
    unfold GetTvmPaths.isParams at hpsel
    rw [Bool.and_eq_true] at hpsel
    exact hpsel.2
  have hjne := EndsWith_ne_nil _ _ hjend (by decide)
  have hlne := EndsWith_ne_nil _ _ hlend hLne
  have hpne := EndsWith_ne_nil _ _ hpend (by decide)
  have hfile : ∀ f, f ∈ ListDir file_list [] →
      ∃ info ∈ file_list, info.type ≠ FileType.kDirectory ∧ info.name = f :=
    fun f hf => (mem_ListDir file_list f).mp hf
  refine ⟨GetTvmPaths.scan AUX LIBEXT (ListDir file_list []), ?_, hjne, hlne, hpne,
    hfile _ hjmem, hjend, hfile _ hlmem, hlend, hfile _ hpmem, hpend⟩
  unfold GetTvmPaths
  dsimp only
  rw [if_neg]
  simp [List.isEmpty_iff, hjne, hlne, hpne]

theorem GetTvmPaths_valid_witness :
    ∃ paths : ModelPath,
      GetTvmPaths auxFiles ".so".toList
          [file "m/model.json", file "m/model.so", file "m/model.params"] = Except.ok paths
      ∧ paths.model_json ≠ [] ∧ paths.model_lib ≠ [] ∧ paths.params ≠ []
      ∧ (∃ info ∈ [file "m/model.json", file "m/model.so", file "m/model.params"],
          info.type ≠ FileType.kDirectory ∧ info.name = paths.model_json)
      ∧ EndsWith paths.model_json ".json".toList = true
      ∧ (∃ info ∈ [file "m/model.json", file "m/model.so", file "m/model.params"],
          info.type ≠ FileType.kDirectory ∧ info.name = paths.model_lib)
      ∧ EndsWith paths.model_lib ".so".toList = true
      ∧ (∃ info ∈ [file "m/model.json", file "m/model.so", file "m/model.params"],
          info.type ≠ FileType.kDirectory ∧ info.name = paths.params)
      ∧ EndsWith paths.params ".params".toList = true :=
  GetTvmPaths_valid auxFiles ".so".toList
    [file "m/model.json", file "m/model.so", file "m/model.params"]
    (by decide) (by decide) (by decide) (by decide)

/-- C6 fails on the code: in a complete model directory that also holds
`m/version.json`, listed last, GetTvmPaths reports `m/version.json` (basename
`version.json`) as `model_json` and leaves `ver_json` empty. -/
theorem GetTvmPaths_selects_version_json_path :
    GetBasename "m/version.json".toList = "version.json".toList
      ∧ GetTvmPaths auxFiles ".so".toList
          [file "m/model.json", file "m/model.so", file "m/model.params",
            file "m/version.json"]
        = Except.ok
            { model_json := "m/version.json".toList
              model_lib := "m/model.so".toList
              params := "m/model.params".toList
              ver_json := [] } := by
  decide

/-- What the code does for the bare name: the bare name `version.json` is never
`model_json`, and when it is listed it is what `ver_json` holds. -/
theorem GetTvmPaths_bare_version_json (AUX : List (List Char)) (LIBEXT : List Char)
    (file_list : List FileInfo) (hext : libextDistinct LIBEXT = true) :
    (GetTvmPaths.scan AUX LIBEXT (ListDir file_list [])).model_json ≠ "version.json".toList
      ∧ ((∃ info ∈ file_list, info.type ≠ FileType.kDirectory
            ∧ info.name = "version.json".toList) →
          (GetTvmPaths.scan AUX LIBEXT (ListDir file_list [])).ver_json
            = "version.json".toList) := by
  constructor
  · rw [scan_model_json]
    intro heq
    by_cases hex : ∃ f ∈ ListDir file_list [], GetTvmPaths.isModelJson AUX f = true
    · have hsel := (last_selected_some _ _ ([] : List Char) hex).2
      rw [heq] at hsel
      unfold GetTvmPaths.isModelJson at hsel
      rw [Bool.and_eq_true, bne_iff_ne] at hsel
      exact hsel.2 rfl
    · have hnone : ∀ f ∈ ListDir file_list [], GetTvmPaths.isModelJson AUX f = false := by
        intro f hf
        rw [← Bool.not_eq_true]
        exact fun h => hex ⟨f, hf, h⟩
      rw [last_selected_none _ _ _ hnone] at heq
      exact absurd heq (by decide)
  · rintro ⟨info, hi, hty, hname⟩
    have hsel : GetTvmPaths.isVerJson AUX LIBEXT "version.json".toList = true := by
      have h1 : GetTvmPaths.isModelJson AUX "version.json".toList = false := by
        unfold GetTvmPaths.isModelJson
        rw [show ("version.json".toList != "version.json".toList) = false by decide,
          Bool.and_false]
      have h2 : EndsWith "version.json".toList LIBEXT = false := by
        rw [← Bool.not_eq_true]
        intro h
        have := not_json_of_libext LIBEXT _ hext h
        exact absurd this (by decide)
      unfold GetTvmPaths.isVerJson
      rw [h1, h2]
      decide
    have hex : ∃ f ∈ ListDir file_list [], GetTvmPaths.isVerJson AUX LIBEXT f = true :=
      ⟨"version.json".toList, (mem_ListDir _ _).mpr ⟨info, hi, hty, hname⟩, hsel⟩
    have hlast := (last_selected_some _ _ ([] : List Char) hex).2
    rw [← scan_ver_json AUX LIBEXT] at hlast
    unfold GetTvmPaths.isVerJson at hlast
    rw [Bool.and_eq_true, beq_iff_eq] at hlast
    exact hlast.2

/-! ## Names of inputs and weights -/

theorem sort_perm (v : List (List Char)) : (sort v).Perm v :=
  List.perm_insertionSort _ v

theorem sort_sorted (v : List (List Char)) : (sort v).Sorted (fun a b => a ≤ b) :=
  List.sorted_insertionSort _ v

theorem occurrences_eq_count (x : List Char) (v : List (List Char)) :
    occurrences x v = @List.count _ instBEqOfDecidableEq x v := rfl

theorem occurrences_sort (v : List (List Char)) (x : List Char) :
    occurrences x (sort v) = occurrences x v :=
  (sort_perm v).countP_eq _

theorem occurrences_cons (x a : List Char) (v : List (List Char)) :
    occurrences x (a :: v) = occurrences x v + if a = x then 1 else 0 := by
  unfold occurrences
  rw [List.countP_cons]
  by_cases h : a = x <;> simp [h]

theorem occurrences_eq_zero (x : List Char) (v : List (List Char)) (h : x ∉ v) :
    occurrences x v = 0 := by
  unfold occurrences
  rw [List.countP_eq_zero]
  intro a ha
  have : a ≠ x := fun e => h (e ▸ ha)
  simpa using this

theorem occurrences_pos_iff (x : List Char) (v : List (List Char)) :
    0 < occurrences x v ↔ x ∈ v := by
  unfold occurrences
  rw [List.countP_pos_iff]
  constructor
  · rintro ⟨a, ha, h⟩
    have : a = x := by simpa using h
    exact this ▸ ha
  · intro h
    exact ⟨x, h, by simp⟩

/-- On ascending ranges the loop of `set_difference` keeps each name as often as
it occurs in the first range beyond its occurrences in the second. -/
theorem count_set_difference_loop (n : Nat) (r₁ r₂ : List (List Char))
    (h₁ : r₁.Sorted (fun a b => a ≤ b)) (h₂ : r₂.Sorted (fun a b => a ≤ b))
    (hn : r₁.length + r₂.length ≤ n) (x : List Char) :
    occurrences x (set_difference.loop n r₁ r₂) = occurrences x r₁ - occurrences x r₂ := by
  induction n generalizing r₁ r₂ with
  | zero =>
    have : r₁ = [] := List.eq_nil_of_length_eq_zero (by omega)
    subst this
    simp [set_difference.loop, occurrences]
  | succ n ih =>
    cases r₁ with
    | nil => simp [set_difference.loop, occurrences]
    | cons a as =>
      cases r₂ with
      | nil => simp [set_difference.loop, occurrences]
      | cons b bs =>
        have ha := List.sorted_cons.mp h₁
        have hb := List.sorted_cons.mp h₂
        simp only [List.length_cons] at hn
        unfold set_difference.loop
        by_cases hab : a < b
        · rw [if_pos hab, occurrences_cons,
            ih as (b :: bs) ha.2 h₂ (by simp only [List.length_cons]; omega),
            occurrences_cons x a as]
          by_cases hx : a = x
          · subst hx
            have hnot : a ∉ b :: bs := by
              intro hmem
              rcases List.mem_cons.mp hmem with h | h
              · exact absurd h (ne_of_lt hab)
              · exact absurd (hb.1 a h) (not_le.mpr hab)
            rw [occurrences_eq_zero a _ hnot]
            simp
          · rw [if_neg hx]
            rfl
        · by_cases hba : b < a
          · rw [if_neg hab, if_pos hba,
              ih (a :: as) bs h₁ hb.2 (by simp only [List.length_cons]; omega),
              occurrences_cons x b bs]
            by_cases hx : b = x
            · subst hx
              have hnot : b ∉ a :: as := by
                intro hmem
                rcases List.mem_cons.mp hmem with h | h
                · exact absurd h (ne_of_lt hba)
                · exact absurd (ha.1 b h) (not_le.mpr hba)
              rw [occurrences_eq_zero b _ hnot]
              simp
            · rw [if_neg hx]
              rfl
          · have heq : a = b := le_antisymm (not_lt.mp hba) (not_lt.mp hab)
            rw [if_neg hab, if_neg hba, ih as bs ha.2 hb.2 (by omega), occurrences_cons x a as,
              occurrences_cons x b bs, heq]
            omega

theorem count_set_difference (r₁ r₂ : List (List Char))
    (h₁ : r₁.Sorted (fun a b => a ≤ b)) (h₂ : r₂.Sorted (fun a b => a ≤ b)) (x : List Char) :
    occurrences x (set_difference r₁ r₂) = occurrences x r₁ - occurrences x r₂ :=
  count_set_difference_loop _ r₁ r₂ h₁ h₂ (le_refl _) x

/-- The names `SetupTVMModule` leaves in a fresh model: each slot name as often
as it is reported beyond its occurrences among the weight names. -/
theorem count_input_names (rt : GraphRuntime) (x : List Char) :
    occurrences x (SetupTVMModule.names {} rt).input_names_
      = occurrences x rt.input_names - occurrences x rt.weight_names := by
  unfold SetupTVMModule.names
  dsimp only
  rw [List.append_nil, count_set_difference _ _ (sort_sorted _) (sort_sorted _),
    occurrences_sort, occurrences_sort]

theorem SetupTVMModule_ok (AUX : List (List Char)) (LIBEXT : List Char)
    (file_list : List FileInfo) (rt : GraphRuntime) (m : TVMModel) (paths : ModelPath)
    (h : GetTvmPaths AUX LIBEXT file_list = Except.ok paths) :
    SetupTVMModule AUX LIBEXT file_list rt m = Except.ok (SetupTVMModule.names m rt) := by
  unfold SetupTVMModule
  rw [h]

/-- A report with distinct slot names, distinct weight names and every weight
name among the slot names meets the conditions on repetitions used below. -/
theorem report_of_distinct_names (rt : GraphRuntime)
    (hslots : rt.input_names.Nodup) (hweights : rt.weight_names.Nodup)
    (hsub : ∀ w ∈ rt.weight_names, w ∈ rt.input_names) :
    (∀ w ∈ rt.weight_names, occurrences w rt.input_names ≤ occurrences w rt.weight_names)
      ∧ (∀ w, occurrences w rt.weight_names ≤ occurrences w rt.input_names) := by
  have h1 : ∀ w, occurrences w rt.input_names ≤ 1 := by
    intro w
    rw [occurrences_eq_count]
    exact List.nodup_iff_count_le_one.mp hslots w
  have h2 : ∀ w, occurrences w rt.weight_names ≤ 1 := by
    intro w
    rw [occurrences_eq_count]
    exact List.nodup_iff_count_le_one.mp hweights w
  constructor
  · intro w hw
    have := (occurrences_pos_iff w rt.weight_names).mpr hw
    have := h1 w
    omega
  · intro w
    by_cases hw : w ∈ rt.weight_names
    · have := (occurrences_pos_iff w rt.input_names).mpr (hsub w hw)
      have := h2 w
      omega
    · rw [occurrences_eq_zero w _ hw]
      exact Nat.zero_le _

theorem input_names_multiset (rt : GraphRuntime) :
    ((SetupTVMModule.names {} rt).input_names_ : Multiset (List Char))
      = (rt.input_names : Multiset (List Char)) - (rt.weight_names : Multiset (List Char)) := by
  rw [Multiset.ext]
  intro a
  rw [Multiset.count_sub, Multiset.coe_count, Multiset.coe_count, Multiset.coe_count,
    ← occurrences_eq_count, ← occurrences_eq_count, ← occurrences_eq_count, count_input_names]

theorem wrap32_eq_sub (x : Int) : ∃ q : Int, wrap32 x = x - 2 ^ 32 * q := by
  refine ⟨(x + 2 ^ 31) / 2 ^ 32, ?_⟩
  unfold wrap32
  rw [Int.emod_def]
  ring

theorem wrap64_eq_sub (x : Int) : ∃ q : Int, wrap64 x = x - 2 ^ 64 * q := by
  refine ⟨(x + 2 ^ 63) / 2 ^ 64, ?_⟩
  unfold wrap64
  rw [Int.emod_def]
  ring

theorem wrap32_sub_mul (x q : Int) : wrap32 (x - 2 ^ 32 * q) = wrap32 x := by
  unfold wrap32
  have : x - 2 ^ 32 * q + 2 ^ 31 = x + 2 ^ 31 + 2 ^ 32 * (-q) := by ring
  rw [this, Int.add_mul_emod_self_left]

theorem wrap64_sub_mul (x q : Int) : wrap64 (x - 2 ^ 64 * q) = wrap64 x := by
  unfold wrap64
  have : x - 2 ^ 64 * q + 2 ^ 63 = x + 2 ^ 63 + 2 ^ 64 * (-q) := by ring
  rw [this, Int.add_mul_emod_self_left]

theorem wrap64_mul_wrap64 (a b : Int) : wrap64 (wrap64 a * b) = wrap64 (a * b) := by
  obtain ⟨q, hq⟩ := wrap64_eq_sub a
  rw [hq, show (a - 2 ^ 64 * q) * b = a * b - 2 ^ 64 * (q * b) by ring, wrap64_sub_mul]

theorem wrap32_step (a b : Int) : wrap32 (wrap64 (wrap32 a * b)) = wrap32 (a * b) := by
  obtain ⟨q, hq⟩ := wrap32_eq_sub a
  obtain ⟨r, hr⟩ := wrap64_eq_sub (wrap32 a * b)
  rw [hr, hq, show (a - 2 ^ 32 * q) * b - 2 ^ 64 * r
    = a * b - 2 ^ 32 * (q * b + 2 ^ 32 * r) by ring, wrap32_sub_mul]

theorem foldl_wrap32 (range : List Int) (s : Int) :
    range.foldl (fun acc x => wrap32 (wrap64 (acc * x))) (wrap32 s)
      = wrap32 (s * range.prod) := by
  induction range generalizing s with
  | nil => simp
  | cons d rest ih =>
    rw [List.foldl_cons, wrap32_step, ih, List.prod_cons, mul_assoc]

/-- What `accumulate_int` computes: the product reduced to a 32-bit `int`. -/
theorem accumulate_int_eq (range : List Int) : accumulate_int range = wrap32 range.prod := by
  have h := foldl_wrap32 range 1
  rw [one_mul, show wrap32 1 = 1 by decide] at h
  exact h

/-- The check of `SetInput`, when both ranges lie inside their arrays, compares
the two products reduced to 32 bits. -/
theorem SetInput_fails_iff (arr : DLTensor) (shape : List Int) (dim : Int)
    (hdim : 0 ≤ dim ∧ dim.toNat ≤ shape.length)
    (hndim : 0 ≤ arr.ndim ∧ arr.ndim.toNat ≤ arr.shape.length) :
    (SetInput arr shape dim = some (Except.error Fatal.mismatch_in_input_data_size)
        ↔ wrap32 (shape.take dim.toNat).prod ≠ wrap32 (arr.shape.take arr.ndim.toNat).prod)
      ∧ (SetInput arr shape dim = some (Except.ok ())
        ↔ wrap32 (shape.take dim.toNat).prod = wrap32 (arr.shape.take arr.ndim.toNat).prod) := by
  unfold SetInput accumulate_range CHECK_SHAPE
  rw [if_pos hdim, if_pos hndim]
  dsimp only
  rw [accumulate_int_eq, accumulate_int_eq]
  split_ifs with h <;> simp [h]

/-- Outside the arrays `SetInput` has no defined outcome: a negative count, or a
count beyond the entries of the array, reads outside the array. -/
theorem SetInput_outside (arr : DLTensor) (shape : List Int) (dim : Int)
    (h : ¬ (0 ≤ dim ∧ dim.toNat ≤ shape.length)
      ∨ ¬ (0 ≤ arr.ndim ∧ arr.ndim.toNat ≤ arr.shape.length)) :
    SetInput arr shape dim = none := by
  unfold SetInput accumulate_range
  rcases h with h | h
  · rw [if_neg h]
  · rw [if_neg h]
    split <;> rfl

/-- C9 fails on the code: the slot shape [2, 2] has 4 elements and the caller
shape [4294967298, 2] has 8589934596, yet `SetInput` passes the size check. -/
theorem SetInput_accepts_different_sizes :
    ([4294967298, 2] : List Int).prod = 8589934596
      ∧ ([2, 2] : List Int).prod = 4
      ∧ SetInput ⟨2, [2, 2]⟩ [4294967298, 2] 2 = some (Except.ok ()) := by
  decide

theorem foldl_wrap64 (range : List Int) (s : Int) :
    range.foldl (fun acc x => wrap64 (acc * x)) (wrap64 s) = wrap64 (s * range.prod) := by
  induction range generalizing s with
  | nil => simp
  | cons d rest ih =>
    rw [List.foldl_cons, wrap64_mul_wrap64, ih, List.prod_cons, mul_assoc]

/-- The loop of `GetOutputSizeDim`, started at entry `k` with `n` entries to go,
multiplies the entries `k`, ..., `k + n - 1` into `size`. -/
theorem GetOutputSizeDim_loop_eq (tensor : DLTensor) (n k : Nat) (size : Int)
    (hk : ((k + n : Nat) : Int) = tensor.ndim) (hlen : k + n ≤ tensor.shape.length) :
    GetOutputSizeDim.loop tensor n (k : Int) size
      = some (((tensor.shape.drop k).take n).foldl (fun acc x => wrap64 (acc * x)) size) := by
  induction n generalizing k size with
  | zero => simp [GetOutputSizeDim.loop]
  | succ n ih =>
    have hlt : (k : Int) < tensor.ndim := by
      rw [← hk]
      push_cast
      omega
    have hkl : k < tensor.shape.length := by omega
    unfold GetOutputSizeDim.loop
    rw [if_pos hlt, Int.toNat_ofNat, List.get?_eq_getElem?, List.getElem?_eq_getElem hkl]
    dsimp only
    have hnext := ih (k + 1) (wrap64 (size * tensor.shape[k]))
      (by rw [← hk]; push_cast; ring) (by omega)
    rw [Nat.cast_add, Nat.cast_one] at hnext
    rw [hnext, List.drop_eq_getElem_cons hkl, List.take_succ_cons, List.foldl_cons]

/-- C10: for a valid index and a descriptor whose `shape` holds `ndim` entries,
GetOutputSizeDim yields `dim = ndim` and `size` equal to the 64-bit product of
the `ndim` entries GetOutputShape copies; for `ndim = 0` the size is 1. -/
theorem GetOutputSizeDim_eq_product (outputs_ : List DLTensor) (index : Nat)
    (tensor : DLTensor)
    (hidx : outputs_.get? index = some tensor)
    (hnd : 0 ≤ tensor.ndim) (hlen : tensor.ndim.toNat ≤ tensor.shape.length) :
    ∃ shape : List Int, GetOutputShape outputs_ index = some shape
      ∧ (shape.length : Int) = tensor.ndim
      ∧ GetOutputSizeDim outputs_ index = some (wrap64 shape.prod, tensor.ndim)
      ∧ (tensor.ndim = 0 → GetOutputSizeDim outputs_ index = some (1, 0)) := by
  have hcast : ((0 + tensor.ndim.toNat : Nat) : Int) = tensor.ndim := by
    rw [Nat.zero_add, Int.toNat_of_nonneg hnd]
  have hloop := GetOutputSizeDim_loop_eq tensor tensor.ndim.toNat 0 1 hcast (by omega)
  rw [Nat.cast_zero, List.drop_zero] at hloop
  have hfold := foldl_wrap64 (tensor.shape.take tensor.ndim.toNat) 1
  rw [one_mul, show wrap64 1 = 1 by decide] at hfold
  rw [hfold] at hloop
  have hsize : GetOutputSizeDim outputs_ index
      = some (wrap64 (tensor.shape.take tensor.ndim.toNat).prod, tensor.ndim) := by
    unfold GetOutputSizeDim
    rw [hidx]
    dsimp only
    rw [hloop]
  refine ⟨tensor.shape.take tensor.ndim.toNat, ?_, ?_, hsize, ?_⟩
  · unfold GetOutputShape
    rw [hidx]
    dsimp only
    rw [if_pos ⟨hnd, hlen⟩]
  · rw [List.length_take, Nat.min_eq_left hlen, Int.toNat_of_nonneg hnd]
  · intro h0
    rw [hsize, h0]
    rfl

theorem GetOutputSizeDim_eq_product_witness :
    ∃ shape : List Int,
      GetOutputShape [⟨1, [10]⟩, ⟨3, [4294967296, 4294967296, 3, 7]⟩] 1 = some shape
      ∧ (shape.length : Int) = (⟨3, [4294967296, 4294967296, 3, 7]⟩ : DLTensor).ndim
      ∧ GetOutputSizeDim [⟨1, [10]⟩, ⟨3, [4294967296, 4294967296, 3, 7]⟩] 1
          = some (wrap64 shape.prod, (⟨3, [4294967296, 4294967296, 3, 7]⟩ : DLTensor).ndim)
      ∧ ((⟨3, [4294967296, 4294967296, 3, 7]⟩ : DLTensor).ndim = 0 →
          GetOutputSizeDim [⟨1, [10]⟩, ⟨3, [4294967296, 4294967296, 3, 7]⟩] 1 = some (1, 0)) :=
  GetOutputSizeDim_eq_product [⟨1, [10]⟩, ⟨3, [4294967296, 4294967296, 3, 7]⟩] 1
    ⟨3, [4294967296, 4294967296, 3, 7]⟩ (by decide) (by decide) (by decide)

/-! ## Directory listing and scan order -/

/-- C13: ListDir leaves what the output vector held in place and appends the names
of the entries that are not directories, in the order of the listing, each as
often as it is listed. -/
theorem ListDir_appends_files (file_list : List FileInfo) (paths : List (List Char)) :
    ListDir file_list paths
        = paths ++ (file_list.filter (fun info => info.type ≠ FileType.kDirectory)).map
            FileInfo.name
      ∧ (ListDir file_list paths).take paths.length = paths
      ∧ (ListDir file_list paths).drop paths.length
          = (file_list.filter (fun info => info.type ≠ FileType.kDirectory)).map
              FileInfo.name := by
  have h := ListDir_eq file_list paths
  refine ⟨h, ?_, ?_⟩
  · rw [h, List.take_left']
    rfl
  · rw [h, List.drop_left']
    rfl

theorem scan_first_match (pre post : List (List Char)) (f : List Char)
    (hpre : ∀ g ∈ pre, EndsWith g ".params".toList = false
      ∧ EndsWith g ".tflite".toList = false)
    (hf : (EndsWith f ".params".toList || EndsWith f ".tflite".toList) = true) :
    GetBackend.scan (pre ++ f :: post)
      = if EndsWith f ".params".toList = true then DLRBackend.kTVM
        else DLRBackend.kTFLITE := by
  induction pre with
  | nil =>
    show GetBackend.scan (f :: post) = _
    unfold GetBackend.scan
    by_cases hp : EndsWith f ".params".toList = true
    · rw [if_pos hp, if_pos hp]
    · rw [if_neg hp, if_neg hp]
      rw [Bool.or_eq_true] at hf
      rw [if_pos (hf.resolve_left hp)]
  | cons g rest ih =>
    have hg := hpre g (List.mem_cons_self _ _)
    have hrest : ∀ g ∈ rest, EndsWith g ".params".toList = false
        ∧ EndsWith g ".tflite".toList = false :=
      fun x hx => hpre x (List.mem_cons_of_mem _ hx)
    show GetBackend.scan (g :: (rest ++ f :: post)) = _
    unfold GetBackend.scan
    rw [if_neg (by rw [hg.1]; exact Bool.false_ne_true),
      if_neg (by rw [hg.2]; exact Bool.false_ne_true), ih hrest]

/-- C14: for a path not ending in `.tflite`, the first listed file that ends in
`.params` or `.tflite` decides the result, kTVM for `.params` and kTFLITE for
`.tflite`, whatever is listed after it. -/
theorem GetBackend_first_match (dirname : List Char) (pre post : List FileInfo)
    (info : FileInfo)
    (hdir : EndsWith dirname ".tflite".toList = false)
    (hfile : info.type ≠ FileType.kDirectory)
    (hmatch : (EndsWith info.name ".params".toList
      || EndsWith info.name ".tflite".toList) = true)
    (hpre : ∀ g ∈ pre, g.type ≠ FileType.kDirectory →
      EndsWith g.name ".params".toList = false ∧ EndsWith g.name ".tflite".toList = false) :
    GetBackend dirname (pre ++ info :: post)
        = (if EndsWith info.name ".params".toList = true then DLRBackend.kTVM
          else DLRBackend.kTFLITE)
      ∧ ∀ other : List FileInfo,
          GetBackend dirname (pre ++ info :: other) = GetBackend dirname (pre ++ info :: post) := by
  have key : ∀ l : List FileInfo, GetBackend dirname (pre ++ info :: l)
      = if EndsWith info.name ".params".toList = true then DLRBackend.kTVM
        else DLRBackend.kTFLITE := by
    intro l
    have hsplit : ListDir (pre ++ info :: l) []
        = ListDir pre [] ++ info.name :: ListDir l [] := by
      have h1 : pre ++ info :: l = pre ++ ([info] ++ l) := by simp
      rw [h1, ListDir_append, ListDir_append]
      simp [ListDir_eq, hfile]
    unfold GetBackend
    rw [hsplit, if_neg (by rw [hdir]; exact Bool.false_ne_true)]
    apply scan_first_match _ _ _ _ hmatch
    intro g hg
    obtain ⟨i, hi, hty, hname⟩ := (mem_ListDir pre g).mp hg
    rw [← hname]
    exact hpre i hi hty
  exact ⟨key post, fun other => by rw [key other, key post]⟩

theorem GetBackend_first_match_witness :
    GetBackend "m".toList ([dir "m/old.params", file "m/readme.txt"]
          ++ file "m/net.tflite" :: [file "m/net.params"])
        = (if EndsWith (file "m/net.tflite").name ".params".toList = true then DLRBackend.kTVM
          else DLRBackend.kTFLITE)
      ∧ ∀ other : List FileInfo,
          GetBackend "m".toList ([dir "m/old.params", file "m/readme.txt"]
              ++ file "m/net.tflite" :: other)
            = GetBackend "m".toList ([dir "m/old.params", file "m/readme.txt"]
              ++ file "m/net.tflite" :: [file "m/net.params"]) :=
  GetBackend_first_match "m".toList [dir "m/old.params", file "m/readme.txt"]
    [file "m/net.params"] (file "m/net.tflite") (by decide) (by decide) (by decide) (by decide)

/-! ## Bounds-checked name accessors -/

theorem set_difference_loop_sublist (n : Nat) (r₁ r₂ : List (List Char)) :
    (set_difference.loop n r₁ r₂).Sublist r₁ := by
  induction n generalizing r₁ r₂ with
  | zero =>
    unfold set_difference.loop
    exact List.Sublist.refl _
  | succ n ih =>
    cases r₁ with
    | nil =>
      unfold set_difference.loop
      exact List.Sublist.refl _
    | cons a as =>
      cases r₂ with
      | nil =>
        unfold set_difference.loop
        exact List.Sublist.refl _
      | cons b bs =>
        unfold set_difference.loop
        by_cases hab : a < b
        · rw [if_pos hab]
          exact (ih as (b :: bs)).cons₂ a
        · by_cases hba : b < a
          · rw [if_neg hab, if_pos hba]
            exact ih (a :: as) bs
          · rw [if_neg hab, if_neg hba]
            exact (ih as bs).cons a

theorem set_difference_sublist (r₁ r₂ : List (List Char)) :
    (set_difference r₁ r₂).Sublist r₁ :=
  set_difference_loop_sublist _ r₁ r₂

theorem length_sort (v : List (List Char)) : (sort v).length = v.length :=
  (sort_perm v).length_eq

theorem names_of_SetupTVMModule (AUX : List (List Char)) (LIBEXT : List Char)
    (file_list : List FileInfo) (rt : GraphRuntime) (m₀ m : TVMModel)
    (hm : SetupTVMModule AUX LIBEXT file_list rt m₀ = Except.ok m) :
    m = SetupTVMModule.names m₀ rt := by
  unfold SetupTVMModule at hm
  cases hp : GetTvmPaths AUX LIBEXT file_list with
  | error e =>
    rw [hp] at hm
    cases hm
  | ok p =>
    rw [hp] at hm
    injection hm with hm
    exact hm.symm

theorem length_input_names_le (rt : GraphRuntime) :
    (SetupTVMModule.names {} rt).input_names_.length ≤ rt.input_names.length := by
  have h := (set_difference_sublist (sort rt.input_names) (sort rt.weight_names)).length_le
  rw [length_sort] at h
  unfold SetupTVMModule.names
  dsimp only
  rw [List.append_nil]
  exact h

/-- Against a `size_t` count that is the size of a vector, the check passes
exactly for the valid positions, and then the converted index is the index. -/
theorem CHECK_LT_size_t (index : Int) (count : Nat)
    (hidx : -2 ^ 31 ≤ index ∧ index < 2 ^ 31) (hcount : count < 2 ^ 63) :
    (CHECK_LT CountType.size_t index count = true ↔ 0 ≤ index ∧ index < (count : Int))
      ∧ (0 ≤ index → to_size_t index = index.toNat) := by
  unfold CHECK_LT to_size_t
  dsimp only
  rw [decide_eq_true_eq]
  have h64 : (2 : Int) ^ 64 = 18446744073709551616 := by norm_num
  have h63 : (2 : Nat) ^ 63 = 9223372036854775808 := by norm_num
  have h31 : (2 : Int) ^ 31 = 2147483648 := by norm_num
  rw [h64]
  rw [h31] at hidx
  rw [h63] at hcount
  constructor
  · constructor
    · intro h
      omega
    · intro h
      omega
  · intro h0
    congr 1
    omega

/-- The checked read of position `index` of a vector whose size is the `size_t`
count: the name at a valid position, the diagnostic at any other index. -/
theorem checked_read (names : List (List Char)) (count : Nat) (index : Int) (e : Fatal)
    (hcount : count = names.length) (hlen : names.length < 2 ^ 63)
    (hidx : -2 ^ 31 ≤ index ∧ index < 2 ^ 31) :
    ((0 ≤ index ∧ index < (names.length : Int)) →
        ∃ name, names.get? index.toNat = some name
          ∧ (if CHECK_LT CountType.size_t index count = true
              then Except.ok (names.get? (to_size_t index)) else Except.error e)
            = Except.ok (some name))
      ∧ (¬ (0 ≤ index ∧ index < (names.length : Int)) →
          (if CHECK_LT CountType.size_t index count = true
              then Except.ok (names.get? (to_size_t index)) else Except.error e)
            = Except.error e) := by
  have hchk := CHECK_LT_size_t index count hidx (hcount ▸ hlen)
  rw [hcount] at hchk
  constructor
  · intro hv
    have hlt : index.toNat < names.length := by omega
    refine ⟨names[index.toNat], ?_, ?_⟩
    · rw [List.get?_eq_getElem?, List.getElem?_eq_getElem hlt]
    · rw [hcount, if_pos (hchk.1.mpr hv), hchk.2 hv.1, List.get?_eq_getElem?,
        List.getElem?_eq_getElem hlt]
  · intro hv
    rw [hcount, if_neg (fun h => hv (hchk.1.mp h))]

/-- C11: with `size_t` counts, after SetupTVMModule, GetInputName and GetWeightName
return the name at position `index` of the sorted list when `index` is a valid
position, and end with the out-of-range diagnostic for every other `int`
index, negative ones included; no index leads to a read outside the vector. -/
theorem GetInputName_GetWeightName_checked (AUX : List (List Char)) (LIBEXT : List Char)
    (file_list : List FileInfo) (rt : GraphRuntime) (m : TVMModel) (index : Int)
    (hm : SetupTVMModule AUX LIBEXT file_list rt {} = Except.ok m)
    (hidx : -2 ^ 31 ≤ index ∧ index < 2 ^ 31)
    (hin : rt.input_names.length < 2 ^ 63) (hw : rt.weight_names.length < 2 ^ 63) :
    ((0 ≤ index ∧ index < (m.input_names_.length : Int)) →
        ∃ name, m.input_names_.get? index.toNat = some name
          ∧ GetInputName CountType.size_t m index = Except.ok (some name))
      ∧ (¬ (0 ≤ index ∧ index < (m.input_names_.length : Int)) →
          GetInputName CountType.size_t m index
            = Except.error Fatal.input_index_out_of_range)
      ∧ GetInputName CountType.size_t m index ≠ Except.ok none
      ∧ ((0 ≤ index ∧ index < (m.weight_names_.length : Int)) →
        ∃ name, m.weight_names_.get? index.toNat = some name
          ∧ GetWeightName CountType.size_t m index = Except.ok (some name))
      ∧ (¬ (0 ≤ index ∧ index < (m.weight_names_.length : Int)) →
          GetWeightName CountType.size_t m index
            = Except.error Fatal.weight_index_out_of_range)
      ∧ GetWeightName CountType.size_t m index ≠ Except.ok none := by
  have hmeq := names_of_SetupTVMModule AUX LIBEXT file_list rt {} m hm
  subst hmeq
  have hni : (SetupTVMModule.names {} rt).num_inputs_
      = (SetupTVMModule.names {} rt).input_names_.length := rfl
  have hnw : (SetupTVMModule.names {} rt).num_weights_
      = (SetupTVMModule.names {} rt).weight_names_.length := (length_sort rt.weight_names).symm
  have hli : (SetupTVMModule.names {} rt).input_names_.length < 2 ^ 63 :=
    lt_of_le_of_lt (length_input_names_le rt) hin
  have hlw : (SetupTVMModule.names {} rt).weight_names_.length < 2 ^ 63 := by
    rw [← hnw]
    exact hw
  have hI := checked_read _ _ index Fatal.input_index_out_of_range hni hli hidx
  have hW := checked_read _ _ index Fatal.weight_index_out_of_range hnw hlw hidx
  refine ⟨hI.1, hI.2, ?_, hW.1, hW.2, ?_⟩
  · by_cases hv : 0 ≤ index ∧ index < ((SetupTVMModule.names {} rt).input_names_.length : Int)
    · obtain ⟨name, _, h⟩ := hI.1 hv
      intro hnone
      have h' : GetInputName CountType.size_t (SetupTVMModule.names {} rt) index
          = Except.ok (some name) := h
      rw [h'] at hnone
      cases hnone
    · intro hnone
      have h' : GetInputName CountType.size_t (SetupTVMModule.names {} rt) index
          = Except.error Fatal.input_index_out_of_range := hI.2 hv
      rw [h'] at hnone
      cases hnone
  · by_cases hv : 0 ≤ index ∧ index < ((SetupTVMModule.names {} rt).weight_names_.length : Int)
    · obtain ⟨name, _, h⟩ := hW.1 hv
      intro hnone
      have h' : GetWeightName CountType.size_t (SetupTVMModule.names {} rt) index
          = Except.ok (some name) := h
      rw [h'] at hnone
      cases hnone
    · intro hnone
      have h' : GetWeightName CountType.size_t (SetupTVMModule.names {} rt) index
          = Except.error Fatal.weight_index_out_of_range := hW.2 hv
      rw [h'] at hnone
      cases hnone

theorem GetInputName_GetWeightName_checked_witness :
    ((0 ≤ (-1 : Int) ∧ (-1 : Int) < (exampleModel.input_names_.length : Int)) →
        ∃ name, exampleModel.input_names_.get? (-1 : Int).toNat = some name
          ∧ GetInputName CountType.size_t exampleModel (-1) = Except.ok (some name))
      ∧ (¬ (0 ≤ (-1 : Int) ∧ (-1 : Int) < (exampleModel.input_names_.length : Int)) →
          GetInputName CountType.size_t exampleModel (-1)
            = Except.error Fatal.input_index_out_of_range)
      ∧ GetInputName CountType.size_t exampleModel (-1) ≠ Except.ok none
      ∧ ((0 ≤ (-1 : Int) ∧ (-1 : Int) < (exampleModel.weight_names_.length : Int)) →
        ∃ name, exampleModel.weight_names_.get? (-1 : Int).toNat = some name
          ∧ GetWeightName CountType.size_t exampleModel (-1) = Except.ok (some name))
      ∧ (¬ (0 ≤ (-1 : Int) ∧ (-1 : Int) < (exampleModel.weight_names_.length : Int)) →
          GetWeightName CountType.size_t exampleModel (-1)
            = Except.error Fatal.weight_index_out_of_range)
      ∧ GetWeightName CountType.size_t exampleModel (-1) ≠ Except.ok none :=
  GetInputName_GetWeightName_checked auxFiles ".so".toList modelDir exampleRuntime
    exampleModel (-1) (by decide) (by decide) (by decide) (by decide)

/-- With counts declared `int` instead, the index -1 passes the check of
`GetInputName` and the read is outside the vector. -/
theorem GetInputName_int_count_negative_index :
    SetupTVMModule auxFiles ".so".toList modelDir exampleRuntime {} = Except.ok exampleModel
      ∧ GetInputName CountType.int exampleModel (-1) = Except.ok none
      ∧ GetInputName CountType.size_t exampleModel (-1)
          = Except.error Fatal.input_index_out_of_range
      ∧ GetWeightName CountType.size_t exampleModel 1 = Except.ok (some "fc_w".toList) := by
  decide

/-! ## Order of the name lists -/

/-- C15: after SetupTVMModule on a fresh model `weight_names_` is an ascending
arrangement of the reported weight names, and `input_names_` is ascending and
holds each name as often as it occurs among the sorted slot names beyond its
occurrences among the sorted weight names. -/
theorem SetupTVMModule_names_sorted (AUX : List (List Char)) (LIBEXT : List Char)
    (file_list : List FileInfo) (rt : GraphRuntime) (paths : ModelPath)
    (h : GetTvmPaths AUX LIBEXT file_list = Except.ok paths) :
    ∃ m : TVMModel, SetupTVMModule AUX LIBEXT file_list rt {} = Except.ok m
      ∧ m.weight_names_.Sorted (fun a b => a ≤ b)
      ∧ m.weight_names_.Perm rt.weight_names
      ∧ m.input_names_.Sorted (fun a b => a ≤ b)
      ∧ (∀ x, occurrences x m.input_names_
          = occurrences x (sort rt.input_names) - occurrences x (sort rt.weight_names))
      ∧ (m.input_names_ : Multiset (List Char))
          = (rt.input_names : Multiset (List Char)) - (rt.weight_names : Multiset (List Char)) := by
  refine ⟨SetupTVMModule.names {} rt, SetupTVMModule_ok AUX LIBEXT file_list rt {} paths h,
    sort_sorted _, sort_perm _, ?_, ?_, input_names_multiset rt⟩
  · have hsub := set_difference_sublist (sort rt.input_names) (sort rt.weight_names)
    have hs : (set_difference (sort rt.input_names) (sort rt.weight_names)).Sorted
        (fun a b => a ≤ b) := List.Pairwise.sublist hsub (sort_sorted rt.input_names)
    unfold SetupTVMModule.names
    dsimp only
    rw [List.append_nil]
    exact hs
  · intro x
    rw [count_input_names, occurrences_sort, occurrences_sort]

theorem SetupTVMModule_names_sorted_witness :
    ∃ m : TVMModel, SetupTVMModule auxFiles ".so".toList modelDir exampleRuntime {} = Except.ok m
      ∧ m.weight_names_.Sorted (fun a b => a ≤ b)
      ∧ m.weight_names_.Perm exampleRuntime.weight_names
      ∧ m.input_names_.Sorted (fun a b => a ≤ b)
      ∧ (∀ x, occurrences x m.input_names_
          = occurrences x (sort exampleRuntime.input_names)
            - occurrences x (sort exampleRuntime.weight_names))
      ∧ (m.input_names_ : Multiset (List Char))
          = (exampleRuntime.input_names : Multiset (List Char))
            - (exampleRuntime.weight_names : Multiset (List Char)) :=
  SetupTVMModule_names_sorted auxFiles ".so".toList modelDir exampleRuntime
    ⟨"m/model.json".toList, "m/model.so".toList, "m/model.params".toList, []⟩ (by decide)

/-! ## One field per file, last file wins, validity -/

theorem EndsWith_nil (f : List Char) : EndsWith f [] = true :=
  (EndsWith_iff_suffix f []).mpr List.nil_suffix

/-- The loop body as a choice among the four branch conditions. -/
theorem step_eq (AUX : List (List Char)) (LIBEXT : List Char) (p : ModelPath) (f : List Char) :
    GetTvmPaths.step AUX LIBEXT p f
      = if GetTvmPaths.isModelJson AUX f = true then { p with model_json := f }
        else if GetTvmPaths.isModelLib AUX LIBEXT f = true then { p with model_lib := f }
        else if GetTvmPaths.isParams AUX LIBEXT f = true then { p with params := f }
        else if GetTvmPaths.isVerJson AUX LIBEXT f = true then { p with ver_json := f }
        else p := by
  unfold GetTvmPaths.step GetTvmPaths.isVerJson GetTvmPaths.isParams GetTvmPaths.isModelLib
    GetTvmPaths.isModelJson
  dsimp only
  generalize (EndsWith f ".json".toList && AUX.all (fun s => s != GetBasename f)
    && f != "version.json".toList) = c₁
  generalize EndsWith f LIBEXT = c₂
  generalize EndsWith f ".params".toList = c₃
  generalize (f == "version.json".toList) = c₄
  cases c₁ <;> cases c₂ <;> cases c₃ <;> cases c₄ <;> rfl

/-- No file meets two of the four branch conditions. -/
theorem branches_exclusive (AUX : List (List Char)) (LIBEXT f : List Char) :
    (GetTvmPaths.isModelJson AUX f = true →
        GetTvmPaths.isModelLib AUX LIBEXT f = false ∧ GetTvmPaths.isParams AUX LIBEXT f = false
          ∧ GetTvmPaths.isVerJson AUX LIBEXT f = false)
      ∧ (GetTvmPaths.isModelLib AUX LIBEXT f = true →
        GetTvmPaths.isParams AUX LIBEXT f = false ∧ GetTvmPaths.isVerJson AUX LIBEXT f = false)
      ∧ (GetTvmPaths.isParams AUX LIBEXT f = true →
        GetTvmPaths.isVerJson AUX LIBEXT f = false) := by
  unfold GetTvmPaths.isVerJson GetTvmPaths.isParams GetTvmPaths.isModelLib
  generalize GetTvmPaths.isModelJson AUX f = c₁
  generalize EndsWith f LIBEXT = c₂
  generalize EndsWith f ".params".toList = c₃
  generalize (f == "version.json".toList) = c₄
  cases c₁ <;> cases c₂ <;> cases c₃ <;> cases c₄ <;> decide

/-- The last selected element with later elements all unselected. -/
theorem last_selected_split {α : Type} (sel : α → Bool) (pre post : List α) (f d : α)
    (hf : sel f = true) (hpost : ∀ g ∈ post, sel g = false) :
    (((pre ++ f :: post).filter sel).getLast?).getD d = f := by
  have hnil : post.filter sel = [] := by
    rw [List.filter_eq_nil_iff]
    intro a ha
    rw [hpost a ha]
    exact Bool.false_ne_true
  rw [List.filter_append, List.filter_cons_of_pos hf, hnil,
    List.getLast?_append_of_ne_nil _ (List.cons_ne_nil f [])]
  rfl

theorem last_selected_ne_nil_iff (sel : List Char → Bool) (l : List (List Char))
    (hsel : ∀ f, sel f = true → f ≠ []) :
    ((l.filter sel).getLast?).getD [] ≠ [] ↔ ∃ f ∈ l, sel f = true := by
  constructor
  · intro hne
    by_contra hex
    apply hne
    apply last_selected_none
    intro x hx
    rw [← Bool.not_eq_true]
    exact fun h => hex ⟨x, hx, h⟩
  · intro hex
    exact hsel _ (last_selected_some sel l [] hex).2

theorem isModelJson_ne_nil (AUX : List (List Char)) (f : List Char)
    (h : GetTvmPaths.isModelJson AUX f = true) : f ≠ [] := by
  unfold GetTvmPaths.isModelJson at h
  rw [Bool.and_eq_true, Bool.and_eq_true] at h
  exact EndsWith_ne_nil _ _ h.1.1 (by decide)

theorem isParams_ne_nil (AUX : List (List Char)) (LIBEXT f : List Char)
    (h : GetTvmPaths.isParams AUX LIBEXT f = true) : f ≠ [] := by
  unfold GetTvmPaths.isParams at h
  rw [Bool.and_eq_true] at h
  exact EndsWith_ne_nil _ _ h.2 (by decide)

theorem isModelLib_ne_nil (AUX : List (List Char)) (LIBEXT f : List Char) (hext : LIBEXT ≠ [])
    (h : GetTvmPaths.isModelLib AUX LIBEXT f = true) : f ≠ [] := by
  unfold GetTvmPaths.isModelLib at h
  rw [Bool.and_eq_true] at h
  exact EndsWith_ne_nil _ _ h.2 hext

theorem isParams_false_of_nil (AUX : List (List Char)) (f : List Char) :
    GetTvmPaths.isParams AUX [] f = false := by
  unfold GetTvmPaths.isParams
  rw [EndsWith_nil]
  generalize GetTvmPaths.isModelJson AUX f = c₁
  generalize EndsWith f ".params".toList = c₃
  cases c₁ <;> cases c₃ <;> rfl

/-- The outcome of GetTvmPaths in terms of the branch conditions met by the
listed files. -/
theorem GetTvmPaths_ok_iff (AUX : List (List Char)) (LIBEXT : List Char)
    (file_list : List FileInfo) :
    ((∃ f ∈ ListDir file_list [], GetTvmPaths.isModelJson AUX f = true)
        ∧ (∃ f ∈ ListDir file_list [], GetTvmPaths.isModelLib AUX LIBEXT f = true)
        ∧ (∃ f ∈ ListDir file_list [], GetTvmPaths.isParams AUX LIBEXT f = true) →
      GetTvmPaths AUX LIBEXT file_list
        = Except.ok (GetTvmPaths.scan AUX LIBEXT (ListDir file_list [])))
    ∧ (¬ ((∃ f ∈ ListDir file_list [], GetTvmPaths.isModelJson AUX f = true)
        ∧ (∃ f ∈ ListDir file_list [], GetTvmPaths.isModelLib AUX LIBEXT f = true)
        ∧ (∃ f ∈ ListDir file_list [], GetTvmPaths.isParams AUX LIBEXT f = true)) →
      GetTvmPaths AUX LIBEXT file_list = Except.error Fatal.no_valid_tvm_model_files) := by
  have hj := last_selected_ne_nil_iff (GetTvmPaths.isModelJson AUX) (ListDir file_list [])
    (isModelJson_ne_nil AUX)
  have hp := last_selected_ne_nil_iff (GetTvmPaths.isParams AUX LIBEXT) (ListDir file_list [])
    (isParams_ne_nil AUX LIBEXT)
  rw [← scan_model_json AUX LIBEXT] at hj
  rw [← scan_params AUX LIBEXT] at hp
  have hempty : ∀ q : ModelPath,
      (q.model_json = [] ∨ q.model_lib = [] ∨ q.params = []) →
        (if (q.model_json.isEmpty || q.model_lib.isEmpty || q.params.isEmpty) = true then
          (Except.error Fatal.no_valid_tvm_model_files : Except Fatal ModelPath)
          else Except.ok q) = Except.error Fatal.no_valid_tvm_model_files := by
    intro q hq
    rcases hq with h | h | h <;> rw [h] <;> simp
  have hfull : ∀ q : ModelPath, q.model_json ≠ [] → q.model_lib ≠ [] → q.params ≠ [] →
        (if (q.model_json.isEmpty || q.model_lib.isEmpty || q.params.isEmpty) = true then
          (Except.error Fatal.no_valid_tvm_model_files : Except Fatal ModelPath)
          else Except.ok q) = Except.ok q := by
    intro q h1 h2 h3
    rw [if_neg]
    simp [List.isEmpty_iff, h1, h2, h3]
  by_cases hext : LIBEXT = []
  · subst hext
    have hnop : ¬ ∃ f ∈ ListDir file_list [], GetTvmPaths.isParams AUX [] f = true := by
      rintro ⟨f, _, hf⟩
      rw [isParams_false_of_nil] at hf
      exact Bool.false_ne_true hf
    constructor
    · rintro ⟨_, _, h3⟩
      exact absurd h3 hnop
    · intro _
      unfold GetTvmPaths
      dsimp only
      apply hempty
      right; right
      by_contra hne
      exact hnop (hp.mp hne)
  · have hl := last_selected_ne_nil_iff (GetTvmPaths.isModelLib AUX LIBEXT)
      (ListDir file_list []) (fun f => isModelLib_ne_nil AUX LIBEXT f hext)
    rw [← scan_model_lib AUX LIBEXT] at hl
    constructor
    · rintro ⟨h1, h2, h3⟩
      unfold GetTvmPaths
      dsimp only
      exact hfull _ (hj.mpr h1) (hl.mpr h2) (hp.mpr h3)
    · intro hnot
      unfold GetTvmPaths
      dsimp only
      apply hempty
      by_contra hall
      rw [not_or, not_or] at hall
      exact hnot ⟨hj.mp hall.1, hl.mp hall.2.1, hp.mp hall.2.2⟩

/-- C16: the loop body of GetTvmPaths changes at most one field per file, trying
topology descriptor, compiled library, parameter blob and version descriptor
in this order; after the loop each field holds the last listed file that took
its branch; and a listing with files for the three required fields is
accepted, however many there are of each kind. -/
theorem GetTvmPaths_one_field_last_wins (AUX : List (List Char)) (LIBEXT : List Char)
    (file_list : List FileInfo) :
    (∀ (p : ModelPath) (f : List Char),
        (GetTvmPaths.step AUX LIBEXT p f
          = if GetTvmPaths.isModelJson AUX f = true then { p with model_json := f }
            else if GetTvmPaths.isModelLib AUX LIBEXT f = true then { p with model_lib := f }
            else if GetTvmPaths.isParams AUX LIBEXT f = true then { p with params := f }
            else if GetTvmPaths.isVerJson AUX LIBEXT f = true then { p with ver_json := f }
            else p)
        ∧ (GetTvmPaths.step AUX LIBEXT p f = { p with model_json := f }
          ∨ GetTvmPaths.step AUX LIBEXT p f = { p with model_lib := f }
          ∨ GetTvmPaths.step AUX LIBEXT p f = { p with params := f }
          ∨ GetTvmPaths.step AUX LIBEXT p f = { p with ver_json := f }
          ∨ GetTvmPaths.step AUX LIBEXT p f = p))
      ∧ (∀ (pre post : List (List Char)) (f : List Char),
          ListDir file_list [] = pre ++ f :: post →
            (GetTvmPaths.isModelJson AUX f = true →
              (∀ g ∈ post, GetTvmPaths.isModelJson AUX g = false) →
              (GetTvmPaths.scan AUX LIBEXT (ListDir file_list [])).model_json = f)
            ∧ (GetTvmPaths.isModelLib AUX LIBEXT f = true →
              (∀ g ∈ post, GetTvmPaths.isModelLib AUX LIBEXT g = false) →
              (GetTvmPaths.scan AUX LIBEXT (ListDir file_list [])).model_lib = f)
            ∧ (GetTvmPaths.isParams AUX LIBEXT f = true →
              (∀ g ∈ post, GetTvmPaths.isParams AUX LIBEXT g = false) →
              (GetTvmPaths.scan AUX LIBEXT (ListDir file_list [])).params = f)
            ∧ (GetTvmPaths.isVerJson AUX LIBEXT f = true →
              (∀ g ∈ post, GetTvmPaths.isVerJson AUX LIBEXT g = false) →
              (GetTvmPaths.scan AUX LIBEXT (ListDir file_list [])).ver_json = f))
      ∧ ((∃ f ∈ ListDir file_list [], GetTvmPaths.isModelJson AUX f = true)
          ∧ (∃ f ∈ ListDir file_list [], GetTvmPaths.isModelLib AUX LIBEXT f = true)
          ∧ (∃ f ∈ ListDir file_list [], GetTvmPaths.isParams AUX LIBEXT f = true) →
        GetTvmPaths AUX LIBEXT file_list
          = Except.ok (GetTvmPaths.scan AUX LIBEXT (ListDir file_list []))) := by
  refine ⟨?_, ?_, (GetTvmPaths_ok_iff AUX LIBEXT file_list).1⟩
  · intro p f
    refine ⟨step_eq AUX LIBEXT p f, ?_⟩
    rw [step_eq]
    split_ifs
    · exact Or.inl rfl
    · exact Or.inr (Or.inl rfl)
    · exact Or.inr (Or.inr (Or.inl rfl))
    · exact Or.inr (Or.inr (Or.inr (Or.inl rfl)))
    · exact Or.inr (Or.inr (Or.inr (Or.inr rfl)))
  · intro pre post f hsplit
    rw [scan_model_json, scan_model_lib, scan_params, scan_ver_json, hsplit]
    exact ⟨fun hf hpost => last_selected_split _ pre post f [] hf hpost,
      fun hf hpost => last_selected_split _ pre post f [] hf hpost,
      fun hf hpost => last_selected_split _ pre post f [] hf hpost,
      fun hf hpost => last_selected_split _ pre post f [] hf hpost⟩

theorem GetTvmPaths_one_field_last_wins_witness :
    GetTvmPaths auxFiles ".so".toList doubledDir
        = Except.ok (GetTvmPaths.scan auxFiles ".so".toList (ListDir doubledDir []))
      ∧ (GetTvmPaths.scan auxFiles ".so".toList (ListDir doubledDir [])).model_json
          = "m/b.json".toList
      ∧ (GetTvmPaths.scan auxFiles ".so".toList (ListDir doubledDir [])).model_lib
          = "m/b.so".toList
      ∧ (GetTvmPaths.scan auxFiles ".so".toList (ListDir doubledDir [])).params
          = "m/b.params".toList
      ∧ (GetTvmPaths.scan auxFiles ".so".toList (ListDir doubledDir [])).ver_json
          = "version.json".toList :=
  ⟨(GetTvmPaths_one_field_last_wins auxFiles ".so".toList doubledDir).2.2
      ⟨by decide, by decide, by decide⟩,
    ((GetTvmPaths_one_field_last_wins auxFiles ".so".toList doubledDir).2.1
      ["m/a.json".toList, "m/a.so".toList, "m/a.params".toList, "version.json".toList,
        "m/b.params".toList, "m/b.so".toList] [] "m/b.json".toList (by decide)).1
      (by decide) (by decide),
    ((GetTvmPaths_one_field_last_wins auxFiles ".so".toList doubledDir).2.1
      ["m/a.json".toList, "m/a.so".toList, "m/a.params".toList, "version.json".toList,
        "m/b.params".toList] ["m/b.json".toList] "m/b.so".toList (by decide)).2.1
      (by decide) (by decide),
    ((GetTvmPaths_one_field_last_wins auxFiles ".so".toList doubledDir).2.1
      ["m/a.json".toList, "m/a.so".toList, "m/a.params".toList, "version.json".toList]
      ["m/b.so".toList, "m/b.json".toList] "m/b.params".toList (by decide)).2.2.1
      (by decide) (by decide),
    ((GetTvmPaths_one_field_last_wins auxFiles ".so".toList doubledDir).2.1
      ["m/a.json".toList, "m/a.so".toList, "m/a.params".toList]
      ["m/b.params".toList, "m/b.so".toList, "m/b.json".toList] "version.json".toList
      (by decide)).2.2.2 (by decide) (by decide)⟩

/-- Whether GetTvmPaths ends the process depends only on which of the three
required branch conditions of the loop some listed file meets, so it is the
same for any two listings that are rearrangements of each other. -/
theorem GetTvmPaths_validity_perm (AUX : List (List Char)) (LIBEXT : List Char)
    (file_list other : List FileInfo) (hperm : file_list.Perm other) :
    (GetTvmPaths AUX LIBEXT file_list = Except.error Fatal.no_valid_tvm_model_files
        ↔ ¬ ((∃ info ∈ file_list, info.type ≠ FileType.kDirectory
                ∧ GetTvmPaths.isModelJson AUX info.name = true)
            ∧ (∃ info ∈ file_list, info.type ≠ FileType.kDirectory
                ∧ GetTvmPaths.isModelLib AUX LIBEXT info.name = true)
            ∧ (∃ info ∈ file_list, info.type ≠ FileType.kDirectory
                ∧ GetTvmPaths.isParams AUX LIBEXT info.name = true)))
      ∧ (GetTvmPaths AUX LIBEXT file_list = Except.error Fatal.no_valid_tvm_model_files
        ↔ GetTvmPaths AUX LIBEXT other = Except.error Fatal.no_valid_tvm_model_files)
      ∧ ((∃ paths, GetTvmPaths AUX LIBEXT file_list = Except.ok paths)
        ↔ ∃ paths, GetTvmPaths AUX LIBEXT other = Except.ok paths) := by
  have hex : ∀ (fl : List FileInfo) (sel : List Char → Bool),
      (∃ f ∈ ListDir fl [], sel f = true)
        ↔ ∃ info ∈ fl, info.type ≠ FileType.kDirectory ∧ sel info.name = true := by
    intro fl sel
    constructor
    · rintro ⟨f, hf, hs⟩
      obtain ⟨info, hi, hty, rfl⟩ := (mem_ListDir fl f).mp hf
      exact ⟨info, hi, hty, hs⟩
    · rintro ⟨info, hi, hty, hs⟩
      exact ⟨info.name, (mem_ListDir fl info.name).mpr ⟨info, hi, hty, rfl⟩, hs⟩
  have key : ∀ fl : List FileInfo,
      GetTvmPaths AUX LIBEXT fl = Except.error Fatal.no_valid_tvm_model_files
        ↔ ¬ ((∃ info ∈ fl, info.type ≠ FileType.kDirectory
                ∧ GetTvmPaths.isModelJson AUX info.name = true)
            ∧ (∃ info ∈ fl, info.type ≠ FileType.kDirectory
                ∧ GetTvmPaths.isModelLib AUX LIBEXT info.name = true)
            ∧ (∃ info ∈ fl, info.type ≠ FileType.kDirectory
                ∧ GetTvmPaths.isParams AUX LIBEXT info.name = true)) := by
    intro fl
    rw [← hex fl (GetTvmPaths.isModelJson AUX), ← hex fl (GetTvmPaths.isModelLib AUX LIBEXT),
      ← hex fl (GetTvmPaths.isParams AUX LIBEXT)]
    constructor
    · intro herr hall
      rw [(GetTvmPaths_ok_iff AUX LIBEXT fl).1 hall] at herr
      cases herr
    · exact (GetTvmPaths_ok_iff AUX LIBEXT fl).2
  have hclass : ∀ sel : List Char → Bool,
      (∃ info ∈ file_list, info.type ≠ FileType.kDirectory ∧ sel info.name = true)
        ↔ ∃ info ∈ other, info.type ≠ FileType.kDirectory ∧ sel info.name = true := by
    intro sel
    constructor
    · rintro ⟨info, hi, h⟩
      exact ⟨info, hperm.mem_iff.mp hi, h⟩
    · rintro ⟨info, hi, h⟩
      exact ⟨info, hperm.mem_iff.mpr hi, h⟩
  have herr : GetTvmPaths AUX LIBEXT file_list = Except.error Fatal.no_valid_tvm_model_files
      ↔ GetTvmPaths AUX LIBEXT other = Except.error Fatal.no_valid_tvm_model_files := by
    rw [key file_list, key other, hclass, hclass, hclass]
  have hok : ∀ fl : List FileInfo, (∃ paths, GetTvmPaths AUX LIBEXT fl = Except.ok paths)
      ↔ ¬ GetTvmPaths AUX LIBEXT fl = Except.error Fatal.no_valid_tvm_model_files := by
    intro fl
    constructor
    · rintro ⟨paths, h⟩ he
      rw [h] at he
      cases he
    · intro hne
      rw [key fl, not_not] at hne
      rw [← hex fl (GetTvmPaths.isModelJson AUX), ← hex fl (GetTvmPaths.isModelLib AUX LIBEXT),
        ← hex fl (GetTvmPaths.isParams AUX LIBEXT)] at hne
      exact ⟨_, (GetTvmPaths_ok_iff AUX LIBEXT fl).1 hne⟩
  exact ⟨key file_list, herr, by rw [hok file_list, hok other, herr]⟩

theorem GetTvmPaths_validity_perm_witness :
    (GetTvmPaths auxFiles ".so".toList modelDir = Except.error Fatal.no_valid_tvm_model_files
        ↔ ¬ ((∃ info ∈ modelDir, info.type ≠ FileType.kDirectory
                ∧ GetTvmPaths.isModelJson auxFiles info.name = true)
            ∧ (∃ info ∈ modelDir, info.type ≠ FileType.kDirectory
                ∧ GetTvmPaths.isModelLib auxFiles ".so".toList info.name = true)
            ∧ (∃ info ∈ modelDir, info.type ≠ FileType.kDirectory
                ∧ GetTvmPaths.isParams auxFiles ".so".toList info.name = true)))
      ∧ (GetTvmPaths auxFiles ".so".toList modelDir
            = Except.error Fatal.no_valid_tvm_model_files
        ↔ GetTvmPaths auxFiles ".so".toList
              [file "m/model.params", file "m/model.json", file "m/model.so"]
            = Except.error Fatal.no_valid_tvm_model_files)
      ∧ ((∃ paths, GetTvmPaths auxFiles ".so".toList modelDir = Except.ok paths)
        ↔ ∃ paths, GetTvmPaths auxFiles ".so".toList
              [file "m/model.params", file "m/model.json", file "m/model.so"]
            = Except.ok paths) :=
  GetTvmPaths_validity_perm auxFiles ".so".toList modelDir
    [file "m/model.params", file "m/model.json", file "m/model.so"] (by decide)

/-! ## Basename -/

/-- A list with an element failing `p` splits into a part ending in such an
element and a trailing part whose elements all satisfy `p`. -/
theorem trailing_split {α : Type} (p : α → Bool) (l : List α) (h : ∃ c ∈ l, p c = false) :
    ∃ init last tail, l = init ++ [last] ++ tail
      ∧ (l.reverse.dropWhile p).reverse = init ++ [last]
      ∧ p last = false ∧ ∀ c ∈ tail, p c = true := by
  have hne : l.reverse.dropWhile p ≠ [] := by
    intro hnil
    rw [List.dropWhile_eq_nil_iff] at hnil
    obtain ⟨c, hc, hpc⟩ := h
    have := hnil c (List.mem_reverse.mpr hc)
    rw [hpc] at this
    exact Bool.false_ne_true this
  have hhead := List.head_dropWhile_not p l.reverse hne
  cases hdw : l.reverse.dropWhile p with
  | nil => exact absurd hdw hne
  | cons x rest =>
    have hx : p x = false := by
      simp only [hdw] at hhead
      exact hhead
    refine ⟨rest.reverse, x, (l.reverse.takeWhile p).reverse, ?_, ?_, hx, ?_⟩
    · have hsplit := List.takeWhile_append_dropWhile p l.reverse
      rw [hdw] at hsplit
      have := congrArg List.reverse hsplit
      rw [List.reverse_reverse, List.reverse_append, List.reverse_cons] at this
      exact this.symm
    · rw [List.reverse_cons]
    · intro c hc
      exact List.mem_takeWhile_imp (List.mem_reverse.mp hc)

/-- The branch compiled without `_WIN32`: for a path holding a character other
than the slash, the result is the last component, a non-empty text without a
slash that is followed in the path by slashes only and preceded by nothing or
by a slash. -/
theorem GetBasename_posix (path : List Char) (h : ∃ c ∈ c_str path, c ≠ '/') :
    ∃ (dir : List Char) (k : Nat),
      c_str path = dir ++ GetBasename path ++ List.replicate k '/'
        ∧ (dir = [] ∨ dir.getLast? = some '/')
        ∧ '/' ∉ GetBasename path ∧ GetBasename path ≠ [] := by
  have h' : ∃ c ∈ c_str path, (fun c => c == '/') c = false := by
    obtain ⟨c, hc, hne⟩ := h
    exact ⟨c, hc, beq_false_of_ne hne⟩
  obtain ⟨init, last, tail, hsplit, hstrip, hlast, htail⟩ :=
    trailing_split (fun c => c == '/') (c_str path) h'
  have hpne : c_str path ≠ [] := by
    obtain ⟨c, hc, _⟩ := h
    exact List.ne_nil_of_mem hc
  have hbase : GetBasename path
      = ((init ++ [last]).reverse.takeWhile (fun c => c != '/')).reverse := by
    unfold GetBasename basename
    rw [if_neg hpne]
    dsimp only
    rw [hstrip, if_neg (by simp)]
  have hrev : (init ++ [last]).reverse = last :: init.reverse := by simp
  have hlast' : (fun c : Char => c != '/') last = true := by
    have : (last == '/') = false := hlast
    show (last != '/') = true
    rw [bne, this]
    rfl
  have htw := List.takeWhile_append_dropWhile (fun c : Char => c != '/') (last :: init.reverse)
  have hstripped : init ++ [last]
      = ((last :: init.reverse).dropWhile (fun c => c != '/')).reverse
        ++ ((last :: init.reverse).takeWhile (fun c => c != '/')).reverse := by
    have hr2 : (last :: init.reverse).reverse = init ++ [last] := by simp
    have := congrArg List.reverse htw
    rw [List.reverse_append, hr2] at this
    exact this.symm
  refine ⟨((last :: init.reverse).dropWhile (fun c => c != '/')).reverse, tail.length,
    ?_, ?_, ?_, ?_⟩
  · have htl : tail = List.replicate tail.length '/' := by
      rw [List.eq_replicate_iff]
      exact ⟨rfl, fun b hb => eq_of_beq (htail b hb)⟩
    rw [hbase, hrev, ← hstripped, ← htl]
    exact hsplit
  · cases hdw : (last :: init.reverse).dropWhile (fun c => c != '/') with
    | nil => exact Or.inl rfl
    | cons x rest =>
      right
      have hne : (last :: init.reverse).dropWhile (fun c => c != '/') ≠ [] := by
        rw [hdw]
        exact List.cons_ne_nil _ _
      have hhead := List.head_dropWhile_not (fun c : Char => c != '/') _ hne
      simp only [hdw, List.head_cons] at hhead
      have hx : x = '/' := by
        by_contra hxne
        have : (x != '/') = true := bne_iff_ne.mpr hxne
        rw [this] at hhead
        exact Bool.noConfusion hhead
      rw [List.getLast?_reverse, List.head?_cons, hx]
  · rw [hbase, hrev]
    intro hmem
    have := List.mem_takeWhile_imp (List.mem_reverse.mp hmem)
    exact absurd this (by decide)
  · rw [hbase, hrev,
      @List.takeWhile_cons_of_pos _ (fun c : Char => c != '/') last init.reverse hlast']
    simp

theorem contains_separators (c : Char) : "/\\".toList.contains c = isSeparator c := by
  unfold isSeparator
  simp only [String.toList, List.contains, List.elem]
  cases h₁ : (c == '/') <;> cases h₂ : (c == '\\') <;> rfl

theorem getD_core_tail (init tail : List Char) (last : Char) (j : Nat) :
    (init ++ last :: tail).getD (init.length + j) (Char.ofNat 0)
      = (last :: tail).getD j (Char.ofNat 0) := by
  rw [List.getD_eq_getElem?_getD, List.getD_eq_getElem?_getD,
    List.getElem?_append_right (Nat.le_add_right _ _), Nat.add_sub_cancel_left]

/-- The stripping loop, started `k` positions after the last character that is
no separator, with only separators in between, stops at that character. -/
theorem GetBasename_loop_stops (init tail : List Char) (last : Char)
    (hlast : isSeparator last = false) (htail : ∀ c ∈ tail, isSeparator c = true)
    (hlen : (init ++ last :: tail).length < 2 ^ 64) (k fuel : Nat)
    (hk : k ≤ tail.length) (hfuel : k + 1 ≤ fuel) :
    GetBasename.loop (init ++ last :: tail) fuel (init.length + k)
      = LoopEnd.stop init.length := by
  induction k generalizing fuel with
  | zero =>
    obtain ⟨n, rfl⟩ : ∃ n, fuel = n + 1 := ⟨fuel - 1, by omega⟩
    unfold GetBasename.loop
    have hin : ¬ (init ++ last :: tail).length < init.length + 0 := by
      rw [List.length_append, List.length_cons]
      omega
    rw [if_neg hin]
    dsimp only
    rw [getD_core_tail]
    have hc : (last :: tail).getD 0 (Char.ofNat 0) = last := rfl
    rw [hc]
    have hs : (last == '/' || last == '\\') = false := hlast
    rw [hs, Bool.false_and, if_neg Bool.false_ne_true]
    rfl
  | succ k ih =>
    obtain ⟨n, rfl⟩ : ∃ n, fuel = n + 1 := ⟨fuel - 1, by omega⟩
    rw [List.length_append, List.length_cons] at hlen
    unfold GetBasename.loop
    have hin : ¬ (init ++ last :: tail).length < init.length + (k + 1) := by
      rw [List.length_append, List.length_cons]
      omega
    rw [if_neg hin]
    dsimp only
    rw [getD_core_tail]
    have hkl : k < tail.length := by omega
    have hc : (last :: tail).getD (k + 1) (Char.ofNat 0) = tail[k] := by
      rw [List.getD_eq_getElem?_getD, List.getElem?_cons_succ, List.getElem?_eq_getElem hkl]
      rfl
    rw [hc]
    have hs : (tail[k] == '/' || tail[k] == '\\') = true :=
      htail _ (List.getElem_mem hkl)
    have hge : decide (0 ≤ init.length + (k + 1)) = true := decide_eq_true (Nat.zero_le _)
    rw [hs, hge, Bool.true_and, if_pos rfl]
    have hnext : (init.length + (k + 1) + (2 ^ 64 - 1)) % 2 ^ 64 = init.length + k := by
      omega
    rw [hnext]
    exact ih n (by omega) (by omega)

theorem find_last_of_sep_last (q : List Char) (s : Char) (hs : isSeparator s = true) :
    find_last_of (q ++ [s]) "/\\".toList = q.length := by
  unfold find_last_of
  have hrev : (q ++ [s]).reverse = s :: q.reverse := by simp
  have hneg : ¬ (fun c => !"/\\".toList.contains c) s = true := by
    show ¬ (!"/\\".toList.contains s) = true
    rw [contains_separators, hs]
    exact Bool.false_ne_true
  rw [hrev]
  dsimp only
  rw [@List.dropWhile_cons_of_neg _ (fun c => !"/\\".toList.contains c) s q.reverse hneg]
  rw [if_neg (by simp)]
  simp

theorem find_last_of_other_last (q : List Char) (x : Char) (hx : isSeparator x = false)
    (hlen : (q ++ [x]).length < 2 ^ 64) :
    find_last_of (q ++ [x]) "/\\".toList ≠ ((q ++ [x]).length + (2 ^ 64 - 1)) % 2 ^ 64 := by
  unfold find_last_of
  have hrev : (q ++ [x]).reverse = x :: q.reverse := by simp
  have hpos : (fun c => !"/\\".toList.contains c) x = true := by
    show (!"/\\".toList.contains x) = true
    rw [contains_separators, hx]
    rfl
  rw [hrev]
  dsimp only
  rw [@List.dropWhile_cons_of_pos _ (fun c => !"/\\".toList.contains c) x q.reverse hpos]
  have hle : (q.reverse.dropWhile (fun c => !"/\\".toList.contains c)).length ≤ q.length := by
    have := (List.dropWhile_sublist (fun c => !"/\\".toList.contains c)
      (l := q.reverse)).length_le
    rwa [List.length_reverse] at this
  rw [List.length_append, List.length_singleton] at hlen ⊢
  have hmod : (q.length + 1 + (2 ^ 64 - 1)) % 2 ^ 64 = q.length := by omega
  rw [hmod]
  by_cases hr : (q.reverse.dropWhile (fun c => !"/\\".toList.contains c)).isEmpty = true
  · rw [if_pos hr]
    unfold npos
    omega
  · rw [if_neg hr]
    have hne : q.reverse.dropWhile (fun c => !"/\\".toList.contains c) ≠ [] := by
      intro h
      rw [h] at hr
      exact hr rfl
    have hpos' := List.length_pos.mpr hne
    omega

/-- The `_WIN32` branch: for a path holding a character that is no separator,
the loop stays inside the string and `path_` is the path without its trailing
separators. -/
theorem GetBasename_win32_strips (path : List Char)
    (h : ∃ c ∈ path, isSeparator c = false) (hlen : path.length < 2 ^ 64) :
    GetBasename.win32_path_ path = StripEnd.path_ (dropTrailingSeparators path) := by
  obtain ⟨init, last, tail, hsplit, hstrip, hlast, htail⟩ := trailing_split isSeparator path h
  have hpath : path = init ++ last :: tail := by
    rw [hsplit]
    simp
  have hdrop : dropTrailingSeparators path = init ++ [last] := hstrip
  rw [hdrop]
  rcases List.eq_nil_or_concat tail with ht | ⟨t, s, ht⟩
  · subst ht
    have hp2 : path = init ++ [last] := hpath
    unfold GetBasename.win32_path_
    dsimp only
    rw [if_neg]
    · rw [hp2]
    · rw [hp2]
      exact find_last_of_other_last init last hlast (hp2 ▸ hlen)
  · rw [List.concat_eq_append] at ht
    have hs : isSeparator s = true := htail s (by rw [ht]; simp)
    have hp2 : path = (init ++ last :: t) ++ [s] := by
      rw [hpath, ht]
      simp
    have hplen : path.length = init.length + 1 + tail.length := by
      rw [hpath, List.length_append, List.length_cons]
      omega
    have htmp : find_last_of path "/\\".toList = init.length + tail.length := by
      rw [hp2, find_last_of_sep_last _ s hs, ht]
      simp only [List.length_append, List.length_cons, List.length_singleton, List.length_nil]
    have hmod : (path.length + (2 ^ 64 - 1)) % 2 ^ 64 = init.length + tail.length := by
      omega
    have hloop : GetBasename.loop path (path.length + 2) (init.length + tail.length)
        = LoopEnd.stop init.length := by
      rw [hpath]
      exact GetBasename_loop_stops init tail last hlast htail (hpath ▸ hlen) tail.length _
        (le_refl _) (by rw [List.length_append, List.length_cons]; omega)
    have hcond : find_last_of path "/\\".toList = (path.length + (2 ^ 64 - 1)) % 2 ^ 64 := by
      rw [htmp, hmod]
    unfold GetBasename.win32_path_
    dsimp only
    rw [if_pos hcond, htmp, hloop]
    dsimp only
    have h1 : (init.length + 1) % 2 ^ 64 = init.length + 1 := by
      apply Nat.mod_eq_of_lt
      omega
    have htake : path.take (init.length + 1) = init ++ [last] := by
      rw [hsplit]
      exact List.take_left' (by simp)
    rw [h1, htake]

/-- The stripping loop on a path made of separators only: started at position
`k` it walks down to position 0, wraps, and reads outside the string. -/
theorem GetBasename_loop_outside (path : List Char)
    (hall : ∀ c ∈ path, isSeparator c = true) (hlen : path.length < 2 ^ 64 - 1)
    (k fuel : Nat) (hk : k < path.length) (hfuel : k + 2 ≤ fuel) :
    GetBasename.loop path fuel k = LoopEnd.outside := by
  induction k generalizing fuel with
  | zero =>
    obtain ⟨n, rfl⟩ : ∃ n, fuel = n + 2 := ⟨fuel - 2, by omega⟩
    unfold GetBasename.loop
    rw [if_neg (by omega)]
    dsimp only
    have hc : path.getD 0 (Char.ofNat 0) = path[0] := by
      rw [List.getD_eq_getElem?_getD, List.getElem?_eq_getElem hk]
      rfl
    have hs : (path[0] == '/' || path[0] == '\\') = true := hall _ (List.getElem_mem hk)
    rw [hc, hs, Bool.true_and, if_pos (decide_eq_true (Nat.le_refl 0))]
    unfold GetBasename.loop
    rw [if_pos (by omega)]
  | succ k ih =>
    obtain ⟨n, rfl⟩ : ∃ n, fuel = n + 1 := ⟨fuel - 1, by omega⟩
    unfold GetBasename.loop
    rw [if_neg (by omega)]
    dsimp only
    have hc : path.getD (k + 1) (Char.ofNat 0) = path[k + 1] := by
      rw [List.getD_eq_getElem?_getD, List.getElem?_eq_getElem hk]
      rfl
    have hs : (path[k + 1] == '/' || path[k + 1] == '\\') = true :=
      hall _ (List.getElem_mem hk)
    rw [hc, hs, Bool.true_and, if_pos (decide_eq_true (Nat.zero_le _))]
    have hnext : (k + 1 + (2 ^ 64 - 1)) % 2 ^ 64 = k := by omega
    rw [hnext]
    exact ih n (by omega) (by omega)

/-- The `_WIN32` branch on the empty path and on every path made of separators
only: the loop reads outside the string. -/
theorem GetBasename_win32_outside (path : List Char)
    (hall : ∀ c ∈ path, isSeparator c = true) (hlen : path.length < 2 ^ 64 - 1) :
    GetBasename.win32_path_ path = StripEnd.outside := by
  rcases List.eq_nil_or_concat path with hp | ⟨q, s, hp⟩
  · subst hp
    decide
  · rw [List.concat_eq_append] at hp
    have hs : isSeparator s = true := hall s (by rw [hp]; simp)
    have hql : path.length = q.length + 1 := by
      rw [hp, List.length_append, List.length_singleton]
    have htmp : find_last_of path "/\\".toList = q.length := by
      rw [hp, find_last_of_sep_last q s hs]
    have hmod : (path.length + (2 ^ 64 - 1)) % 2 ^ 64 = q.length := by omega
    have hcond : find_last_of path "/\\".toList = (path.length + (2 ^ 64 - 1)) % 2 ^ 64 := by
      rw [htmp, hmod]
    have hloop := GetBasename_loop_outside path hall hlen q.length (path.length + 2)
      (by omega) (by omega)
    unfold GetBasename.win32_path_
    dsimp only
    rw [if_pos hcond, htmp, hloop]

theorem c_str_replicate_slash (k : Nat) :
    c_str (List.replicate k '/') = List.replicate k '/' := by
  unfold c_str
  rw [List.takeWhile_eq_self_iff]
  intro x hx
  rw [List.eq_of_mem_replicate hx]
  decide

theorem GetBasename_slashes (k : Nat) :
    GetBasename (List.replicate (k + 1) '/') = "/".toList := by
  unfold GetBasename basename
  rw [c_str_replicate_slash, if_neg (by simp)]
  dsimp only
  have hdrop : (List.replicate (k + 1) '/').reverse.dropWhile (fun c => c == '/') = [] := by
    rw [List.dropWhile_eq_nil_iff]
    intro x hx
    rw [List.reverse_replicate] at hx
    rw [List.eq_of_mem_replicate hx]
    rfl
  rw [hdrop]
  rfl

/-- C12, as stated, fails: without `_WIN32` the path "/" gives "/", which holds a
separator, and the empty path gives "."; under `_WIN32` the stripping loop
reads outside the string for the path "/" and for the empty path. -/
theorem GetBasename_not_always_component :
    GetBasename "/".toList = "/".toList
      ∧ '/' ∈ GetBasename "/".toList
      ∧ GetBasename "".toList = ".".toList
      ∧ GetBasename.win32_path_ "/".toList = StripEnd.outside
      ∧ GetBasename.win32_path_ "".toList = StripEnd.outside := by
  decide

/-- C12, amended: without `_WIN32`, for a path holding a character other than the
slash, GetBasename returns the last component: a non-empty text without a
slash, followed in the path by slashes only and preceded by nothing or by a
slash; the empty path gives "." and a path of slashes gives "/". Under
`_WIN32`, for a path holding a character that is no separator, the stripping
loop stays inside the string and leaves the path without its trailing
separators. -/
theorem GetBasename_last_component (path : List Char) :
    ((∃ c ∈ c_str path, c ≠ '/') →
        ∃ (dir : List Char) (k : Nat),
          c_str path = dir ++ GetBasename path ++ List.replicate k '/'
            ∧ (dir = [] ∨ dir.getLast? = some '/')
            ∧ '/' ∉ GetBasename path ∧ GetBasename path ≠ [])
      ∧ ((∃ c ∈ path, isSeparator c = false) → path.length < 2 ^ 64 →
        GetBasename.win32_path_ path = StripEnd.path_ (dropTrailingSeparators path))
      ∧ GetBasename "/a/b/c.so".toList = "c.so".toList
      ∧ GetBasename "/a/b/".toList = "b".toList
      ∧ GetBasename [] = ".".toList
      ∧ ∀ k : Nat, GetBasename (List.replicate (k + 1) '/') = "/".toList :=
  ⟨GetBasename_posix path, GetBasename_win32_strips path, by decide, by decide, by decide,
    GetBasename_slashes⟩

theorem GetBasename_last_component_witness :
    (∃ (dir : List Char) (k : Nat),
        c_str "/a/b/".toList = dir ++ GetBasename "/a/b/".toList ++ List.replicate k '/'
          ∧ (dir = [] ∨ dir.getLast? = some '/')
          ∧ '/' ∉ GetBasename "/a/b/".toList ∧ GetBasename "/a/b/".toList ≠ [])
      ∧ GetBasename.win32_path_ "/a/b/".toList
          = StripEnd.path_ (dropTrailingSeparators "/a/b/".toList) :=
  ⟨(GetBasename_last_component "/a/b/".toList).1 (by decide),
    (GetBasename_last_component "/a/b/".toList).2.1 (by decide) (by decide)⟩

end dlr
